import Mathlib

/-!
Verification of the chunk-merge / speaker-assignment / sentence-splitting /
formatting pipeline of an audio transcription tool (audio_transcriber.py).

Modelling conventions:
* text is a list of characters (`Str`), one entry per Python `str` character;
* times are rationals (`ℚ`); the Python floats only enter the claims at
  exact-millisecond values, where rational arithmetic is exact;
* a written file is a list of lines (each `write(x + "\n")` appends the line
  `x`, a bare `write("\n")` appends the empty line);
* fallible operations return `Option`.

Recursions that are not structural on their argument are driven by an explicit
fuel parameter initialised with the length of the input, so that every
definition evaluates by `decide`/`rfl` on concrete inputs.
-/

namespace PodcastTranscriber

/-- Text, one entry per Python character. -/
abbrev Str := List Char

/-- Whitespace characters recognised by Python `str.strip` / `\s`
(ASCII subset; the transcripts only contain these). -/
def isPyWs (c : Char) : Bool :=
  c = ' ' || c = '\t' || c = '\n' || c = '\x0d' || c = '\x0b' || c = '\x0c'

/-- Python `str.strip()`. -/
def pyStrip (t : Str) : Str :=
  ((t.dropWhile isPyWs).reverse.dropWhile isPyWs).reverse

/-- Does `t` start with `p`? (Python `str.startswith`.) -/
def startsWithCh : Str → Str → Bool
  | [], _ => true
  | _ :: _, [] => false
  | p :: ps, c :: cs => p = c && startsWithCh ps cs

/-- Does `pat` occur as a contiguous substring of `t`? (Python `in`.) -/
def containsSub (pat t : Str) : Bool :=
  t.tails.any (startsWithCh pat)

/-- How many occurrences of character `c` in `t`. -/
def countCh (c : Char) (t : Str) : ℕ :=
  t.countP (· = c)

/-- Split on a single separator character (Python `str.split(sep)` for a
one-character separator): auxiliary, accumulating the current field reversed. -/
def splitChAux (sep : Char) (acc : Str) : Str → List Str
  | [] => [acc.reverse]
  | c :: rest =>
    if c = sep then acc.reverse :: splitChAux sep [] rest
    else splitChAux sep (c :: acc) rest

/-- Python `str.split(sep)` for a one-character separator. -/
def splitCh (sep : Char) (t : Str) : List Str :=
  splitChAux sep [] t

/-- Decimal digit character (Python `chr(48 + d)` for `d < 10`). -/
def digitChar : ℕ → Char
  | 0 => '0' | 1 => '1' | 2 => '2' | 3 => '3' | 4 => '4'
  | 5 => '5' | 6 => '6' | 7 => '7' | 8 => '8' | _ => '9'

/-- Decimal rendering of a natural number, fuel-driven
(the fuel bounds the number of digits; `natToStr` supplies enough). -/
def natToStrAux : ℕ → ℕ → Str
  | 0, _ => []
  | f + 1, n =>
    if n < 10 then [digitChar n]
    else natToStrAux f (n / 10) ++ [digitChar (n % 10)]

/-- Decimal rendering of a natural number (Python `str(n)` / `format`). -/
def natToStr (n : ℕ) : Str :=
  natToStrAux (n + 1) n

/-- Decimal rendering of an integer. -/
def intToStr (z : ℤ) : Str :=
  if z < 0 then '-' :: natToStr (-z).toNat else natToStr z.toNat

/-- Is `c` an ASCII decimal digit? -/
def isDigitCh (c : Char) : Bool :=
  '0' ≤ c && c ≤ '9'

/-- Numeric value of a digit character. -/
def digitVal (c : Char) : ℕ :=
  c.toNat - 48

/-- Value of a string of decimal digits (most significant first). -/
def digitsToNat (s : Str) : ℕ :=
  s.foldl (fun a c => 10 * a + digitVal c) 0

/-- Left-pad with zeros to width `w` (Python `{:0w}` for non-negative input). -/
def padZeros (w : ℕ) (s : Str) : Str :=
  List.replicate (w - s.length) '0' ++ s

/-- Parse a non-empty all-digit string; `none` otherwise. -/
def parseDigits (s : Str) : Option ℕ :=
  if s ≠ [] ∧ s.all isDigitCh then some (digitsToNat s) else none

/-- Python `int(str)` restricted to the shapes the pipeline can produce:
optional sign followed by decimal digits, surrounded by optional whitespace
(underscore separators and other exotic accepted forms are not modelled;
they never arise from the formatter and are rejected here as in CPython
for the strings the claims touch). Failure is `none` (the `except` branch). -/
def pyInt (s : Str) : Option ℤ :=
  match pyStrip s with
  | '+' :: r => (parseDigits r).map (Nat.cast : ℕ → ℤ)
  | '-' :: r => (parseDigits r).map (fun n => -(Nat.cast n : ℤ))
  | r => (parseDigits r).map (Nat.cast : ℕ → ℤ)

/-- Body of Python `float(str)`: digits with at most one dot, at least one
digit overall (exponents, `inf`, `nan` are not modelled; they never arise
from the formatter). -/
def pyFloatBody (t : Str) : Option ℚ :=
  match splitCh '.' t with
  | [a] => (parseDigits a).map (Nat.cast : ℕ → ℚ)
  | [a, b] =>
    if a = [] ∧ b = [] then none
    else if a = [] then (parseDigits b).map (fun n => (Nat.cast n : ℚ) / 10 ^ b.length)
    else if b = [] then (parseDigits a).map (Nat.cast : ℕ → ℚ)
    else
      match parseDigits a, parseDigits b with
      | some x, some y => some ((x : ℚ) + (y : ℚ) / 10 ^ b.length)
      | _, _ => none
  | _ => none

/-- Python `float(str)` (same restriction as `pyInt`). -/
def pyFloat (s : Str) : Option ℚ :=
  match pyStrip s with
  | '+' :: r => pyFloatBody r
  | '-' :: r => (pyFloatBody r).map Neg.neg
  | r => pyFloatBody r

/-- Join pieces with a separator (Python `sep.join`). -/
def sjoin (sep : Str) : List Str → Str
  | [] => []
  | [s] => s
  | s :: rest => s ++ sep ++ sjoin sep rest

/-! ## Timestamps (`_format_timestamp`, `_parse_timestamp`, `_adjust_timestamps`) -/

/-- Python float `%` (sign of the divisor; here only used with positive
divisors): `a - b * floor (a / b)`. -/
def pyMod (a b : ℚ) : ℚ :=
  a - b * ⌊a / b⌋

/-- Python `f"{secs:06.3f}"`: fixed three decimals, zero-padded to width six.
`round` models the decimal rounding of the float formatter; on the
non-negative exact-millisecond values reached by the claims no rounding
occurs and the two agree exactly. -/
def fmt063 (q : ℚ) : Str :=
  padZeros 6 (natToStr ((round (q * 1000)).toNat / 1000)
    ++ '.' :: padZeros 3 (natToStr ((round (q * 1000)).toNat % 1000)))

/-- The `HH:MM:SS.mmm` core of `_format_timestamp` before the SRT comma
substitution: `hours`/`minutes` use floor division as in
`int(seconds // 3600)`, `secs` the float modulus. -/
def formatCore (seconds : ℚ) : Str :=
  padZeros 2 (intToStr ⌊seconds / 3600⌋) ++ ':' ::
    (padZeros 2 (intToStr ⌊pyMod seconds 3600 / 60⌋) ++ ':' :: fmt063 (pyMod seconds 60))

/-- `AudioTranscriber._format_timestamp`: `HH:MM:SS,mmm` (srt) or
`HH:MM:SS.mmm` (vtt). -/
def format_timestamp (seconds : ℚ) (srt : Bool) : Str :=
  if srt then (formatCore seconds).map (fun c => if c = '.' then ',' else c)
  else formatCore seconds

/-- `AudioTranscriber._parse_timestamp`: replace commas by dots, split on
colons, require exactly three fields, parse `int`, `int`, `float`;
any failure yields `None`. -/
def parse_timestamp (ts : Str) : Option ℚ :=
  match splitCh ':' (ts.map (fun c => if c = ',' then '.' else c)) with
  | [h, m, s] =>
    match pyInt h, pyInt m, pyFloat s with
    | some hours, some minutes, some secs =>
      some ((hours : ℚ) * 3600 + (minutes : ℚ) * 60 + secs)
    | _, _, _ => none
  | _ => none

/-- The literal separator `" --> "` of subtitle timestamp lines. -/
def arrowSep : Str := [' ', '-', '-', '>', ' ']

/-- The arrow substring `"-->"` the merge loop looks for. -/
def arrowPat : Str := ['-', '-', '>']

/-- Split on the five-character separator `" --> "` (Python
`line.split(" --> ")`), fuel-driven. -/
def splitArrowAux : ℕ → Str → Str → List Str
  | 0, acc, t => [acc.reverse ++ t]
  | _ + 1, acc, [] => [acc.reverse]
  | f + 1, acc, t@(c :: rest) =>
    if startsWithCh arrowSep t then acc.reverse :: splitArrowAux f [] (rest.drop 4)
    else splitArrowAux f (c :: acc) rest

/-- Python `line.split(" --> ")`. -/
def splitArrow (t : Str) : List Str :=
  splitArrowAux t.length [] t

/-- `AudioTranscriber._adjust_timestamps`: add `offset` to both timestamps of
a `start --> end` line; a line that does not have exactly two fields, or
whose timestamps do not parse, is returned unchanged. -/
def adjust_timestamps (line : Str) (offset : ℚ) : Str :=
  match splitArrow line with
  | [p0, p1] =>
    match parse_timestamp (pyStrip p0), parse_timestamp (pyStrip p1) with
    | some s, some e =>
      format_timestamp (s + offset) (containsSub [','] p0)
        ++ arrowSep ++ format_timestamp (e + offset) (containsSub [','] p1)
    | _, _ => line
  | _ => line

/-! ## Data model

Whisper results and diarization turns are Python dictionaries; the fields the
pipeline reads are explicit, any other dictionary entries are carried in
`extra` (preserved by `dict.copy`). -/

/-- One recognized/labeled segment (`result["segments"][i]`). `stop` is the
`"end"` key. `speaker` is `none` while the key is absent. -/
structure Seg where
  start : ℚ
  stop : ℚ
  text : Str
  speaker : Option Str
  extra : List (Str × Str)
deriving DecidableEq, Repr

/-- One diarization turn (`diarization["speakers"][i]`). -/
structure Turn where
  start : ℚ
  stop : ℚ
  speaker : Str
deriving DecidableEq, Repr

/-- A transcription result dictionary (`text`, `segments`, `language`, plus
any other entries). -/
structure Transcription where
  text : Str
  segments : List Seg
  language : Option Str
  extra : List (Str × Str)
deriving DecidableEq, Repr

/-! ## Speaker assignment (`assign_speakers_to_segments`,
`_assign_generic_speakers`, `_merge_segment_group`, `_get_speaker_mapping`) -/

/-- Python string `<` (lexicographic by code point). -/
def strLt : Str → Str → Bool
  | _, [] => false
  | [], _ :: _ => true
  | a :: as, b :: bs => a < b || (a = b && strLt as bs)

/-- Insert into an ascending list (used to model Python `sorted`). -/
def insortStr (s : Str) : List Str → List Str
  | [] => [s]
  | t :: ts => if strLt t s then t :: insortStr s ts else s :: t :: ts

/-- Ascending sort of strings (Python `sorted`). -/
def sortStrs (l : List Str) : List Str :=
  l.foldr insortStr []

/-- Association-list lookup (Python `dict.get`): first matching key. -/
def alookup (m : List (Str × Str)) (k : Str) : Option Str :=
  (m.find? (fun p => p.1 = k)).map (·.2)

/-- The sentinel label used when no turn matches. -/
def unknownStr : Str := ['U', 'n', 'k', 'n', 'o', 'w', 'n']

/-- `AudioTranscriber._get_speaker_mapping`: the distinct engine speaker ids,
sorted lexicographically, zipped with `"A"`, `"B"`, `"C"`, …
(`chr(ord('A') + i)`). -/
def get_speaker_mapping (timeline : List Turn) : List (Str × Str) :=
  let uniq := sortStrs (timeline.map (·.speaker)).dedup
  uniq.zip ((List.range uniq.length).map (fun i => [Char.ofNat (65 + i)]))

/-- The per-segment body of the diarization branch of
`assign_speakers_to_segments`: midpoint lookup over the timeline
(first turn with `start <= mid <= end`, else `"Unknown"`), then the
letter mapping for a non-`"Unknown"` engine id. -/
def labelForSegment (timeline : List Turn) (seg : Seg) : Str :=
  let mid := (seg.start + seg.stop) / 2
  let assigned :=
    match timeline.find? (fun tu => decide (tu.start ≤ mid) && decide (mid ≤ tu.stop)) with
    | some tu => tu.speaker
    | none => unknownStr
  if assigned ≠ unknownStr then (alookup (get_speaker_mapping timeline) assigned).getD assigned
  else assigned

/-- The generic label of the pause heuristic. -/
def genericSpeaker : Str := ['S', 'p', 'e', 'a', 'k', 'e', 'r']

/-- Does the text end in terminal punctuation
(`['.', '!', '?', '。', '！', '？']`)? -/
def endsTerminal (t : Str) : Bool :=
  match t.getLast? with
  | some c => c = '.' || c = '!' || c = '?' || c = '。' || c = '！' || c = '？'
  | none => false

/-- `AudioTranscriber._merge_segment_group`: a single-element group is
returned as is; a longer group becomes one fresh segment spanning
`[firstStart, lastEnd]` with the non-empty stripped texts joined by a
space. (The empty-group branch returns the empty dict in Python; it is
unreachable from the callers and modelled by a zero segment.) -/
def merge_segment_group (segs : List Seg) (speaker : Str) : Seg :=
  match segs with
  | [] => ⟨0, 0, [], none, []⟩
  | [s] => s
  | s :: rest =>
    { start := s.start
      stop := ((s :: rest).getLast (by simp)).stop
      text := sjoin [' '] (((s :: rest).map (fun g => pyStrip g.text)).filter (· ≠ []))
      speaker := some speaker
      extra := [] }

/-- The `is_new_paragraph` computation of `_assign_generic_speakers`:
`false` at `i = 0`; otherwise the pause since the previous segment exceeds
1.5 s, or exceeds 0.8 s with the previous stripped text ending in terminal
punctuation. -/
def newParagraph (prev : Option Seg) (s : Seg) : Bool :=
  match prev with
  | none => false
  | some p =>
    decide (s.start - p.stop > 3 / 2)
      || (decide (s.start - p.stop > 4 / 5) && endsTerminal (pyStrip p.text))

/-- The loop of `_assign_generic_speakers`. `group` is the pending
`segment_group` (already speaker-enhanced), `prev` the previously processed
input segment (`none` at `i = 0`). -/
def genGo (group : List Seg) (prev : Option Seg) : List Seg → List Seg
  | [] =>
    match group with
    | [] => []
    | _ => [merge_segment_group group genericSpeaker]
  | s :: rest =>
    let e := { s with speaker := some genericSpeaker }
    if newParagraph prev s && !group.isEmpty then
      merge_segment_group group genericSpeaker :: genGo [e] (some s) rest
    else
      genGo (group ++ [e]) (some s) rest

/-- `AudioTranscriber._assign_generic_speakers`. -/
def assign_generic_speakers (tr : Transcription) : Transcription :=
  { tr with segments := genGo [] none tr.segments }

/-- `AudioTranscriber.assign_speakers_to_segments`: with a diarization
timeline each segment is copied and given the looked-up label; without one
the pause heuristic is used. -/
def assign_speakers_to_segments (tr : Transcription) (d : Option (List Turn)) :
    Transcription :=
  match d with
  | none => assign_generic_speakers tr
  | some timeline =>
    { tr with
      segments := tr.segments.map (fun s => { s with speaker := some (labelForSegment timeline s) }) }

/-! ## Sentence splitter (`_split_into_sentences`)

The two regular expressions are modelled directly:
`({abbreviations})\.` with `re.IGNORECASE` for the protection pass, and
`([.!?]+)\s+(?=[A-Z]|$)` for the boundary split. -/

/-- The protected abbreviations, in the alternation order of the pattern
(`i.e` etc. contain literal dots matched by `\.` inside the alternation). -/
def abbrevs : List Str :=
  ["Mr".toList, "Mrs".toList, "Ms".toList, "Dr".toList, "Prof".toList,
   "Sr".toList, "Jr".toList, "vs".toList, "etc".toList,
   "i.e".toList, "e.g".toList, "a.m".toList, "p.m".toList,
   "U.S".toList, "U.K".toList]

/-- Case-insensitive prefix match (`re.IGNORECASE` compares lowercased
characters). -/
def ciPrefixCh : Str → Str → Bool
  | [], _ => true
  | _ :: _, [] => false
  | p :: ps, c :: cs => p.toLower = c.toLower && ciPrefixCh ps cs

/-- Match of `({abbreviations})\.` at the head of `t`: the first alternative
that matches case-insensitively and is followed by a period; returns its
length. -/
def tryAbbrev (t : Str) : Option ℕ :=
  (abbrevs.find? (fun a => ciPrefixCh a t && ((t.drop a.length).head? == some '.'))).map
    (·.length)

/-- The placeholder tail following the opening bracket. -/
def abbrevTail : Str := ['A', 'B', 'B', 'R', 'E', 'V', '>']

/-- The placeholder `<ABBREV>` substituted for a protected period. -/
def phStr : Str := '<' :: abbrevTail

/-- Left-to-right non-overlapping substitution of `({abbrevs})\.` by
`\1<ABBREV>` (the body of `re.sub`), fuel-driven. -/
def protectAux : ℕ → Str → Str
  | 0, t => t
  | _ + 1, [] => []
  | f + 1, t@(c :: rest) =>
    match tryAbbrev t with
    | some n => t.take n ++ phStr ++ protectAux f (t.drop (n + 1))
    | none => c :: protectAux f rest

/-- The abbreviation-protection pass. -/
def protect (t : Str) : Str :=
  protectAux t.length t

/-- Left-to-right non-overlapping replacement of `<ABBREV>` by `.`
(Python `str.replace`), fuel-driven. -/
def restoreAux : ℕ → Str → Str
  | 0, t => t
  | _ + 1, [] => []
  | f + 1, t@(c :: rest) =>
    if startsWithCh phStr t then '.' :: restoreAux f (t.drop 8)
    else c :: restoreAux f rest

/-- Restores protected periods. -/
def restore (t : Str) : Str :=
  restoreAux t.length t

/-- The characters of the class `[.!?]`. -/
def isPunctCh (c : Char) : Bool :=
  c = '.' || c = '!' || c = '?'

/-- ASCII `[A-Z]`. -/
def isUpperCh (c : Char) : Bool :=
  'A' ≤ c && c ≤ 'Z'

/-- The lookahead `(?=[A-Z]|$)` (`$` also matches just before a final
newline). -/
def lookaheadOk : Str → Bool
  | [] => true
  | [c] => isUpperCh c || c = '\n'
  | c :: _ :: _ => isUpperCh c

/-- Match of `([.!?]+)\s+(?=[A-Z]|$)` at the head of `t`: the greedy
punctuation run and the greedy whitespace run, the lookahead checked after
them. (Backtracking over either greedy run can never succeed when the
greedy attempt fails: the following character is neither whitespace nor a
shorter-run continuation, so the greedy semantics is exact.) -/
def matchAt (t : Str) : Option (ℕ × ℕ) :=
  let k := (t.takeWhile isPunctCh).length
  if k = 0 then none
  else
    let m := ((t.drop k).takeWhile isPyWs).length
    if m = 0 then none
    else if lookaheadOk (t.drop (k + m)) then some (k, m) else none

/-- `re.split` with the one capturing group: alternates text chunks and
captured punctuation runs (the whitespace of the separator is dropped),
fuel-driven. -/
def reSplitAux : ℕ → Str → Str → List Str
  | 0, acc, t => [acc.reverse ++ t]
  | _ + 1, acc, [] => [acc.reverse]
  | f + 1, acc, t@(c :: rest) =>
    match matchAt t with
    | some (k, m) => acc.reverse :: t.take k :: reSplitAux f [] (t.drop (k + m))
    | none => reSplitAux f (c :: acc) rest

/-- `re.split(r"([.!?]+)\s+(?=[A-Z]|$)", t)`. -/
def reSplitParts (t : Str) : List Str :=
  reSplitAux t.length [] t

/-- The pair loop of `_split_into_sentences`: chunk plus captured
punctuation, restored, stripped, dropped when empty. -/
def pairSentences : List Str → List Str
  | a :: b :: rest =>
    let s := pyStrip (restore (a ++ b))
    if s = [] then pairSentences rest else s :: pairSentences rest
  | _ => []

/-- The trailing-part handling of `_split_into_sentences`: when the part
list has odd length, the restored, stripped last part (kept when
non-empty). -/
def lastPartSentence (parts : List Str) : List Str :=
  if parts.length % 2 = 1 then
    if pyStrip (restore ((parts.getLast?).getD [])) = [] then []
    else [pyStrip (restore ((parts.getLast?).getD []))]
  else []

/-- `AudioTranscriber._split_into_sentences`. -/
def split_into_sentences (text : Str) : List Str :=
  if pyStrip text = [] then []
  else
    if pairSentences (reSplitParts (protect text))
        ++ lastPartSentence (reSplitParts (protect text)) = [] then
      [pyStrip text]
    else
      pairSentences (reSplitParts (protect text))
        ++ lastPartSentence (reSplitParts (protect text))

/-! ## Output formatter (`save_transcript`, `_write_speaker_formatted_text`) -/

/-- The contribution of one segment to the plain-text style: nothing when the
stripped text is empty, otherwise one `"speaker: sentence\n\n"` paragraph per
non-empty sentence. -/
def txtSegOut (s : Seg) : Str :=
  if pyStrip s.text = [] then []
  else
    (split_into_sentences (pyStrip s.text)).flatMap (fun sen =>
      if pyStrip sen = [] then []
      else (s.speaker.getD unknownStr) ++ ':' :: ' ' :: (pyStrip sen ++ ['\n', '\n']))

/-- Everything the segment loop of `_write_speaker_formatted_text` writes. -/
def txtBody (segs : List Seg) : Str :=
  segs.flatMap txtSegOut

/-- The no-segments fallback of `_write_speaker_formatted_text` (splits the
full text, `"Unknown"` speaker, no trailing trim). -/
def txtFallback (full : Str) : Str :=
  if pyStrip full = [] then []
  else
    (split_into_sentences (pyStrip full)).flatMap (fun sen =>
      unknownStr ++ ':' :: ' ' :: (sen ++ ['\n', '\n']))

/-- `AudioTranscriber._write_speaker_formatted_text`: the file content of
the plain style. The final `seek(tell - 1); truncate()` drops the last
character; with no segments the function returns before it; with segments
but an empty body the negative seek raises (`none`). -/
def write_speaker_formatted_text (r : Transcription) : Option Str :=
  if r.segments = [] then some (txtFallback r.text)
  else
    let body := txtBody r.segments
    if body = [] then none
    else some body.dropLast

/-- The SRT branch of `save_transcript`: per segment a 1-based index line, a
timestamp line and a `"speaker: text"` payload line, then a blank line. -/
def srtGo (i : ℕ) : List Seg → List Str
  | [] => []
  | s :: rest =>
    natToStr i
      :: (format_timestamp s.start true ++ arrowSep ++ format_timestamp s.stop true)
      :: ((s.speaker.getD unknownStr) ++ ':' :: ' ' :: pyStrip s.text)
      :: [] :: srtGo (i + 1) rest

/-- File lines of `save_transcript(..., format="srt")`. -/
def save_transcript_srt (r : Transcription) : List Str :=
  srtGo 1 r.segments

/-- The VTT per-segment blocks (no index line). -/
def vttGo : List Seg → List Str
  | [] => []
  | s :: rest =>
    (format_timestamp s.start false ++ arrowSep ++ format_timestamp s.stop false)
      :: ((s.speaker.getD unknownStr) ++ ':' :: ' ' :: pyStrip s.text)
      :: [] :: vttGo rest

/-- File lines of `save_transcript(..., format="vtt")`: fixed header then
blocks. -/
def save_transcript_vtt (r : Transcription) : List Str :=
  "WEBVTT".toList :: [] :: vttGo r.segments

/-- `save_transcript(..., format="json")`: `json.dump` serialises the whole
record losslessly; modelled as the record itself. -/
def save_transcript_json (r : Transcription) : Transcription :=
  r

/-! ## Merger (`_merge_subtitle_files`, `_merge_json_files`) -/

/-- The two subtitle dialects. -/
inductive SubFmt
  | srt
  | vtt
deriving DecidableEq, Repr

/-- Skip the two header lines of a VTT chunk whose first line starts with
`WEBVTT` (`i = 2`). -/
def afterHeader (fmt : SubFmt) (lines : List Str) : List Str :=
  match fmt, lines with
  | SubFmt.vtt, l :: _ => if startsWithCh "WEBVTT".toList l then lines.drop 2 else lines
  | _, _ => lines

/-- Python `str.isdigit` (ASCII digits suffice for subtitle indices). -/
def isDigitsStr (s : Str) : Bool :=
  !s.isEmpty && s.all isDigitCh

/-- The line loop of `_merge_subtitle_files` over one chunk: returns the
written lines and the updated subtitle counter. Blank lines are skipped,
SRT digit lines are renumbered with the running counter, lines containing
`-->` have their timestamps adjusted by the running offset, anything else
is copied (stripped). -/
def procLines (fmt : SubFmt) : ℕ → ℚ → List Str → List Str × ℕ
  | c, _, [] => ([], c)
  | c, off, l :: ls =>
    let s := pyStrip l
    if s = [] then procLines fmt c off ls
    else if fmt = SubFmt.srt ∧ isDigitsStr s then
      let r := procLines fmt (c + 1) off ls
      (natToStr c :: r.1, r.2)
    else if containsSub arrowPat s then
      let r := procLines fmt c off ls
      (adjust_timestamps s off :: r.1, r.2)
    else
      let r := procLines fmt c off ls
      (s :: r.1, r.2)

/-- The file loop of `_merge_subtitle_files`: a missing file is skipped
entirely (offset untouched); after a present file the offset grows by the
hard-coded `5 * 60` seconds and a blank line is written. -/
def msGo (fmt : SubFmt) : ℕ → ℚ → List (Option (List Str)) → List Str
  | _, _, [] => []
  | c, off, none :: rest => msGo fmt c off rest
  | c, off, some lines :: rest =>
    let r := procLines fmt c off (afterHeader fmt lines)
    r.1 ++ [] :: msGo fmt r.2 (off + 5 * 60) rest

/-- `AudioTranscriber._merge_subtitle_files` as the list of lines of the
merged file (each input file given as its list of lines, `none` when the
file does not exist). -/
def merge_subtitle_files (fmt : SubFmt) (files : List (Option (List Str))) :
    List Str :=
  (if fmt = SubFmt.vtt then ["WEBVTT".toList, []] else []) ++ msGo fmt 1 0 files

/-- The merged JSON record (`text`, `segments`, `language`). -/
structure MergedJson where
  text : Str
  segments : List Seg
  language : Option Str
deriving DecidableEq, Repr

/-- Shift a copied segment by the running offset. -/
def shiftSeg (off : ℚ) (s : Seg) : Seg :=
  { s with start := s.start + off, stop := s.stop + off }

/-- The file loop of `_merge_json_files`: text concatenated with a space,
segments shifted by the running offset, language taken from the first chunk
that reports one; the offset grows by the hard-coded `5 * 60` seconds per
present file. -/
def mjGo : MergedJson → ℚ → List (Option Transcription) → MergedJson
  | acc, _, [] => acc
  | acc, off, none :: rest => mjGo acc off rest
  | acc, off, some tr :: rest =>
    let text := (if acc.text ≠ [] then acc.text ++ [' '] else acc.text) ++ tr.text
    let segs := acc.segments ++ tr.segments.map (shiftSeg off)
    let lang := if acc.language = none then tr.language else acc.language
    mjGo ⟨text, segs, lang⟩ (off + 5 * 60) rest

/-- `AudioTranscriber._merge_json_files`. -/
def merge_json_files (files : List (Option Transcription)) : MergedJson :=
  mjGo ⟨[], [], none⟩ 0 files

/-! ## Spec-side descriptions

Definitions written from the (amended) specification sentences, to be
compared with the source translations above. -/

/-- Spec wording of the heuristic block boundary between a previous segment
`p` and the next segment `s`: the gap exceeds 1.5 s, or exceeds 0.8 s with
the previous stripped text ending in terminal punctuation. -/
def specBoundary (p s : Seg) : Bool :=
  decide (s.start - p.stop > 3 / 2)
    || (decide (s.start - p.stop > 4 / 5) && endsTerminal (pyStrip p.text))

/-- Number of spec block boundaries along a segment chain after `p`. -/
def specCountAux (p : Seg) : List Seg → ℕ
  | [] => 0
  | s :: rest => (if specBoundary p s then 1 else 0) + specCountAux s rest

/-- Spec block count of a segment sequence: one more than the number of
boundaries, zero for the empty sequence. -/
def specCountBlocks : List Seg → ℕ
  | [] => 0
  | s :: rest => 1 + specCountAux s rest

/-- Spec wording of the merged structured timeline: the segments of chunk
`i` (counting from the given index) shifted by exactly `i * D` seconds, in
chunk order. -/
def specChunkSegs (D : ℚ) : ℕ → List Transcription → List Seg
  | _, [] => []
  | i, c :: rest => c.segments.map (shiftSeg ((i : ℚ) * D)) ++ specChunkSegs D (i + 1) rest

/-- The timestamp lines a chunk offers to the merge: its stripped non-blank
lines (after the VTT header) that contain `-->`. -/
def relevantLines (fmt : SubFmt) (lines : List Str) : List Str :=
  ((afterHeader fmt lines).map pyStrip).filter (fun s => !s.isEmpty && containsSub arrowPat s)

/-- Spec wording of the merged subtitle timestamp lines: chunk `i`'s
timestamp lines adjusted by exactly `i * D` seconds, in chunk order. -/
def specArrowLines (D : ℚ) (fmt : SubFmt) : ℕ → List (List Str) → List Str
  | _, [] => []
  | i, ls :: rest =>
    (relevantLines fmt ls).map (fun l => adjust_timestamps l ((i : ℚ) * D))
      ++ specArrowLines D fmt (i + 1) rest

/-- The non-speaker fields of a segment (frame of claim C10). -/
def frameOf (s : Seg) : ℚ × ℚ × Str × List (Str × Str) :=
  (s.start, s.stop, s.text, s.extra)

/-! ## Lemmas: the pause heuristic -/

lemma newParagraph_some (p s : Seg) : newParagraph (some p) s = specBoundary p s := rfl

lemma genGo_cons (g : List Seg) (prev : Option Seg) (s : Seg) (rest : List Seg) :
    genGo g prev (s :: rest) =
      if newParagraph prev s && !g.isEmpty then
        merge_segment_group g genericSpeaker
          :: genGo [{ s with speaker := some genericSpeaker }] (some s) rest
      else genGo (g ++ [{ s with speaker := some genericSpeaker }]) (some s) rest := rfl

lemma genGo_length (l : List Seg) : ∀ (p : Seg) (g : List Seg), g ≠ [] →
    (genGo g (some p) l).length = 1 + specCountAux p l := by
  induction l with
  | nil =>
    intro p g hg
    cases g with
    | nil => exact absurd rfl hg
    | cons a as => simp [genGo, specCountAux]
  | cons s rest ih =>
    intro p g hg
    have hne : g.isEmpty = false := by
      cases g with
      | nil => exact absurd rfl hg
      | cons a as => rfl
    rw [genGo_cons, newParagraph_some, hne, specCountAux]
    cases hb : specBoundary p s with
    | true =>
      simp only [hb, Bool.not_false, Bool.and_self, if_pos]
      rw [List.length_cons, ih s _ (by simp)]
      omega
    | false =>
      simp only [hb, Bool.false_and, Bool.not_false, if_neg Bool.false_ne_true]
      have h3 := ih s (g ++ [{ s with speaker := some genericSpeaker }]) (by simp)
      rw [h3]
      omega

lemma specCountAux_le (l : List Seg) : ∀ p : Seg, specCountAux p l ≤ l.length := by
  induction l with
  | nil => intro p; simp [specCountAux]
  | cons s rest ih =>
    intro p
    simp only [specCountAux, List.length_cons]
    have := ih s
    split <;> omega

lemma assign_generic_length (tr : Transcription) :
    (assign_generic_speakers tr).segments.length = specCountBlocks tr.segments := by
  rw [assign_generic_speakers]
  cases h : tr.segments with
  | nil => simp [genGo, specCountBlocks]
  | cons s rest =>
    show (genGo [] none (s :: rest)).length = _
    rw [genGo_cons]
    simp only [newParagraph, Bool.false_and, if_neg Bool.false_ne_true, List.nil_append]
    rw [genGo_length rest s [{ s with speaker := some genericSpeaker }] (by simp)]
    rfl

lemma merge_group_speaker_isSome (g : List Seg) (spk : Str) (hg : g ≠ [])
    (h : ∀ e ∈ g, e.speaker.isSome = true) :
    (merge_segment_group g spk).speaker.isSome = true := by
  match g with
  | [s] => exact h s (by simp)
  | s :: s2 :: rest => rfl

lemma genGo_speaker_isSome (l : List Seg) : ∀ (g : List Seg) (p : Option Seg),
    (∀ e ∈ g, e.speaker.isSome = true) →
    ∀ o ∈ genGo g p l, o.speaker.isSome = true := by
  induction l with
  | nil =>
    intro g p hg o ho
    cases g with
    | nil => simp [genGo] at ho
    | cons a as =>
      have : o = merge_segment_group (a :: as) genericSpeaker := by
        simpa [genGo] using ho
      rw [this]
      exact merge_group_speaker_isSome _ _ (by simp) hg
  | cons s rest ih =>
    intro g p hg o ho
    rw [genGo_cons] at ho
    by_cases hc : (newParagraph p s && !g.isEmpty) = true
    · rw [if_pos hc] at ho
      rcases List.mem_cons.mp ho with h1 | h2
      · have hgne : g ≠ [] := by
          intro hnil
          rw [hnil] at hc
          simp at hc
        rw [h1]
        exact merge_group_speaker_isSome _ _ hgne hg
      · exact ih _ _ (by intro e he; simp at he; rw [he]; rfl) o h2
    · rw [if_neg hc] at ho
      refine ih _ _ ?_ o ho
      intro e he
      rcases List.mem_append.mp he with h1 | h2
      · exact hg e h1
      · simp at h2; rw [h2]; rfl

lemma specCountBlocks_le (l : List Seg) : specCountBlocks l ≤ l.length := by
  cases l with
  | nil => simp [specCountBlocks]
  | cons s rest =>
    simp only [specCountBlocks, List.length_cons]
    have := specCountAux_le rest s
    omega

/-- C5 (corrected). The pause heuristic never produces more blocks than
input segments; but a block boundary also occurs at a gap in `(0.8, 1.5]`
seconds when the previous stripped text ends in terminal punctuation, so
"boundaries only at gaps at least the 1.5 s threshold" is false. Amended:
the number of produced blocks is exactly one per run of segments separated
by spec boundaries (gap above 1.5 s, or above 0.8 s with terminal
punctuation), and in particular never exceeds the number of input
segments. -/
theorem C5_heuristic_block_count (tr : Transcription) :
    (assign_speakers_to_segments tr none).segments.length = specCountBlocks tr.segments ∧
    (assign_speakers_to_segments tr none).segments.length ≤ tr.segments.length := by
  have h : assign_speakers_to_segments tr none = assign_generic_speakers tr := rfl
  rw [h, assign_generic_length]
  exact ⟨rfl, specCountBlocks_le tr.segments⟩

/-- C5 counterexample: two segments `[0,1] "Hi."` and `[2,3] "yo"` — the
gap of 1 second is below the 1.5 s pause threshold, yet the heuristic
produces two blocks (a boundary), because the previous text ends in a
period and the gap exceeds 0.8 s. -/
theorem C5_counterexample :
    (assign_speakers_to_segments
        ⟨['t'], [⟨0, 1, "Hi.".toList, none, []⟩, ⟨2, 3, "yo".toList, none, []⟩], none, []⟩
        none).segments.length = 2 ∧ (2 : ℚ) - 1 < 3 / 2 := by
  constructor
  · with_unfolding_all decide
  · norm_num

/-- C2 (corrected). With diarization present the assignment yields exactly
one labeled segment per input segment; without diarization the pause
heuristic merges consecutive segments into blocks, so it yields at most
(not exactly) one output per input. In both paths every output segment
carries a (non-null) speaker label. -/
theorem C2_labels_per_segment (tr : Transcription) (timeline : List Turn) :
    (assign_speakers_to_segments tr (some timeline)).segments.length = tr.segments.length ∧
    ((assign_speakers_to_segments tr (some timeline)).segments.all
      fun s => s.speaker.isSome) = true ∧
    (assign_speakers_to_segments tr none).segments.length ≤ tr.segments.length ∧
    ((assign_speakers_to_segments tr none).segments.all fun s => s.speaker.isSome) = true := by
  refine ⟨?_, ?_, ?_, ?_⟩
  · show (tr.segments.map _).length = _
    rw [List.length_map]
  · rw [List.all_eq_true]
    intro s hs
    have : s ∈ tr.segments.map
        (fun s => { s with speaker := some (labelForSegment timeline s) }) := hs
    rw [List.mem_map] at this
    obtain ⟨a, -, ha⟩ := this
    rw [← ha]
    rfl
  · have h : assign_speakers_to_segments tr none = assign_generic_speakers tr := rfl
    rw [h, assign_generic_length]
    exact specCountBlocks_le tr.segments
  · rw [List.all_eq_true]
    intro s hs
    exact genGo_speaker_isSome tr.segments [] none (by simp) s hs

lemma find?_append_of_none {α : Type} {p : α → Bool} {l1 : List α} (l2 : List α)
    (h : l1.find? p = none) : (l1 ++ l2).find? p = l2.find? p := by
  induction l1 with
  | nil => rfl
  | cons a as ih =>
    rw [List.find?_eq_none] at h
    have h1 : ¬p a = true := by simpa using h a (by simp)
    rw [List.cons_append, List.find?_cons_of_neg _ h1, ih ?_]
    rw [List.find?_eq_none]
    intro x hx
    exact h x (by simp [hx])

/-- C3 (corrected). The diarization-driven lookup uses the closed interval
`start <= mid <= end` of a turn, not the half-open `[start, end)` of the
claim: a segment whose midpoint misses every closed turn interval is
labeled `"Unknown"`, and a segment whose midpoint lies in a turn's closed
interval (all earlier turns missing it) receives that turn's mapped label. -/
theorem C3_midpoint_closed_interval (tr : Transcription) (timeline : List Turn)
    (i : ℕ) (seg : Seg) (hseg : tr.segments[i]? = some seg) :
    ((∀ tu ∈ timeline,
        ¬(tu.start ≤ (seg.start + seg.stop) / 2 ∧ (seg.start + seg.stop) / 2 ≤ tu.stop)) →
      (assign_speakers_to_segments tr (some timeline)).segments[i]? =
        some { seg with speaker := some unknownStr }) ∧
    (∀ pre tu post, timeline = pre ++ tu :: post →
      (∀ tu2 ∈ pre,
        ¬(tu2.start ≤ (seg.start + seg.stop) / 2 ∧ (seg.start + seg.stop) / 2 ≤ tu2.stop)) →
      tu.start ≤ (seg.start + seg.stop) / 2 → (seg.start + seg.stop) / 2 ≤ tu.stop →
      tu.speaker ≠ unknownStr →
      (assign_speakers_to_segments tr (some timeline)).segments[i]? =
        some { seg with
                 speaker := some ((alookup (get_speaker_mapping timeline) tu.speaker).getD
                   tu.speaker) }) := by
  have hmap : (assign_speakers_to_segments tr (some timeline)).segments =
      tr.segments.map (fun s => { s with speaker := some (labelForSegment timeline s) }) := rfl
  constructor
  · intro hmiss
    rw [hmap, List.getElem?_map, hseg, Option.map_some']
    have hfind : timeline.find?
        (fun tu => decide (tu.start ≤ (seg.start + seg.stop) / 2)
          && decide ((seg.start + seg.stop) / 2 ≤ tu.stop)) = none := by
      rw [List.find?_eq_none]
      intro tu htu
      have := hmiss tu htu
      simp only [Bool.and_eq_true, decide_eq_true_eq]
      tauto
    have hlabel : labelForSegment timeline seg = unknownStr := by
      rw [labelForSegment, hfind]
      simp
    rw [hlabel]
  · intro pre tu post heq hmiss h1 h2 hne
    rw [hmap, List.getElem?_map, hseg, Option.map_some']
    have hpre : pre.find?
        (fun tu => decide (tu.start ≤ (seg.start + seg.stop) / 2)
          && decide ((seg.start + seg.stop) / 2 ≤ tu.stop)) = none := by
      rw [List.find?_eq_none]
      intro tu2 htu2
      have := hmiss tu2 htu2
      simp only [Bool.and_eq_true, decide_eq_true_eq]
      tauto
    have hfind : timeline.find?
        (fun tu => decide (tu.start ≤ (seg.start + seg.stop) / 2)
          && decide ((seg.start + seg.stop) / 2 ≤ tu.stop)) = some tu := by
      rw [heq, find?_append_of_none _ hpre,
        List.find?_cons_of_pos _ (by simp only [Bool.and_eq_true, decide_eq_true_eq]; exact ⟨h1, h2⟩)]
    have hlabel : labelForSegment timeline seg =
        (alookup (get_speaker_mapping timeline) tu.speaker).getD tu.speaker := by
      rw [labelForSegment, hfind]
      simp only [ne_eq, hne, not_false_eq_true, if_pos]
    rw [hlabel]

/-- C3 witness: one segment `[1,3]` (midpoint 2) and one turn `[0,4]`
whose engine id `S` maps to `"A"`. -/
theorem C3_witness :
    (assign_speakers_to_segments ⟨['x'], [⟨1, 3, "hi".toList, none, []⟩], none, []⟩
        (some [⟨0, 4, ['S']⟩])).segments[0]? =
      some ⟨1, 3, "hi".toList, some ['A'], []⟩ := by
  have h := (C3_midpoint_closed_interval
      ⟨['x'], [⟨1, 3, "hi".toList, none, []⟩], none, []⟩ [⟨0, 4, ['S']⟩]
      0 ⟨1, 3, "hi".toList, none, []⟩ rfl).2
      [] ⟨0, 4, ['S']⟩ [] rfl (by simp) (by norm_num) (by norm_num) (by decide)
  rw [h]
  with_unfolding_all decide

/-- C3 counterexample: with the single turn `[0,2]` and the degenerate
segment `[2,2]` (midpoint exactly 2), the half-open interval `[0,2)` of the
claim does not contain the midpoint — the claim predicts `"Unknown"` — but
the code labels the segment with the turn's mapped label `"A"`. -/
theorem C3_counterexample :
    ((assign_speakers_to_segments ⟨['x'], [⟨2, 2, "hi".toList, none, []⟩], none, []⟩
        (some [⟨0, 2, ['S']⟩])).segments.map (fun s => s.speaker)) = [some ['A']] ∧
    ¬((0 : ℚ) ≤ 2 ∧ (2 : ℚ) < 2) := by
  constructor
  · with_unfolding_all decide
  · norm_num

lemma strLt_asymm : ∀ a b : Str, strLt a b = true → strLt b a = false := by
  intro a
  induction a with
  | nil =>
    intro b h
    cases b with
    | nil => simp [strLt] at h
    | cons y ys => rfl
  | cons x xs ih =>
    intro b h
    cases b with
    | nil => simp [strLt] at h
    | cons y ys =>
      rw [Bool.eq_false_iff]
      intro hba
      simp only [strLt, Bool.or_eq_true, Bool.and_eq_true, decide_eq_true_eq] at h hba
      rcases h with hlt | ⟨he, hrec⟩
      · rcases hba with hlt2 | ⟨he2, _⟩
        · exact absurd hlt2 (not_lt.mpr (le_of_lt hlt))
        · rw [he2] at hlt; exact lt_irrefl _ hlt
      · rcases hba with hlt2 | ⟨he2, hrec2⟩
        · rw [he] at hlt2; exact lt_irrefl _ hlt2
        · rw [ih ys hrec] at hrec2; cases hrec2

lemma subset_pair_eq (a b : Str) (hab : a ≠ b) :
    ∀ l : List Str, l.Nodup → (∀ x ∈ l, x = a ∨ x = b) → a ∈ l → b ∈ l →
      l = [a, b] ∨ l = [b, a]
  | [], _, _, ha, _ => absurd ha (by simp)
  | [x], _, _, ha, hb => by
    simp only [List.mem_singleton] at ha hb
    exact absurd (ha.trans hb.symm) hab
  | [x, y], hnd, hsub, _, _ => by
    have hxy : x ≠ y := by
      simp only [List.nodup_cons, List.mem_singleton] at hnd
      exact hnd.1
    rcases hsub x (by simp) with hx | hx <;> rcases hsub y (by simp) with hy | hy
    · exact absurd (hx.trans hy.symm) hxy
    · left; rw [hx, hy]
    · right; rw [hx, hy]
    · exact absurd (hx.trans hy.symm) hxy
  | x :: y :: z :: rest, hnd, hsub, _, _ => by
    simp only [List.nodup_cons, List.mem_cons, not_or] at hnd
    have h1 : x ≠ y := hnd.1.1
    have h2 : x ≠ z := hnd.1.2.1
    have h3 : y ≠ z := hnd.2.1.1
    rcases hsub x (by simp) with hx | hx <;> rcases hsub y (by simp) with hy | hy <;>
      rcases hsub z (by simp) with hz | hz <;> simp_all

lemma sortStrs_pair_first (a b : Str) (hlt : strLt a b = true) :
    sortStrs [a, b] = [a, b] := by
  simp [sortStrs, insortStr, strLt_asymm a b hlt]

lemma sortStrs_pair_second (a b : Str) (hlt : strLt a b = true) :
    sortStrs [b, a] = [a, b] := by
  simp [sortStrs, insortStr, hlt]

/-- C4 (corrected). The display labels are assigned to the distinct engine
speaker ids in lexicographically sorted order (`sorted(set(...))`), not in
first-encountered order: with exactly two distinct ids `a < b` the mapping
is exactly `a ↦ "A"`, `b ↦ "B"` regardless of which id appears first in the
timeline; in general the label sequence is `"A"`, `"B"`, `"C"`, … in the
sorted order of the ids. -/
theorem C4_speaker_mapping_lexicographic (timeline : List Turn) (a b : Str)
    (hlt : strLt a b = true)
    (hsub : ∀ x ∈ timeline.map Turn.speaker, x = a ∨ x = b)
    (ha : a ∈ timeline.map Turn.speaker) (hb : b ∈ timeline.map Turn.speaker) :
    get_speaker_mapping timeline = [(a, ['A']), (b, ['B'])] ∧
    ∀ tl : List Turn, (get_speaker_mapping tl).map Prod.snd =
      (List.range (get_speaker_mapping tl).length).map (fun i => [Char.ofNat (65 + i)]) := by
  constructor
  · have hab : a ≠ b := by
      intro h
      rw [h] at hlt
      have : strLt b b = false := by
        have h1 := strLt_asymm b b
        by_cases hc : strLt b b = true
        · exact h1 hc
        · simpa using hc
      rw [this] at hlt
      cases hlt
    have hd := subset_pair_eq a b hab (timeline.map Turn.speaker).dedup
      (List.nodup_dedup _)
      (by intro x hx; exact hsub x (List.mem_dedup.mp hx))
      (List.mem_dedup.mpr ha) (List.mem_dedup.mpr hb)
    rw [get_speaker_mapping]
    rcases hd with hd | hd
    · rw [hd, sortStrs_pair_first a b hlt]
      rfl
    · rw [hd, sortStrs_pair_second a b hlt]
      rfl
  · intro tl
    rw [get_speaker_mapping]
    have hlen : ((sortStrs (tl.map Turn.speaker).dedup).zip
        ((List.range (sortStrs (tl.map Turn.speaker).dedup).length).map
          (fun i => [Char.ofNat (65 + i)]))).length =
        (sortStrs (tl.map Turn.speaker).dedup).length := by
      rw [List.length_zip, List.length_map, List.length_range, min_self]
    rw [hlen, List.map_snd_zip]
    rw [List.length_map, List.length_range]

/-- C4 witness: two turns whose engine ids appear in the order `B`, `Aa`;
the lexicographically smaller `Aa` still receives label `"A"`. -/
theorem C4_witness :
    get_speaker_mapping [⟨0, 1, "B".toList⟩, ⟨1, 2, "Aa".toList⟩] =
      [("Aa".toList, ['A']), ("B".toList, ['B'])] :=
  (C4_speaker_mapping_lexicographic [⟨0, 1, "B".toList⟩, ⟨1, 2, "Aa".toList⟩]
    "Aa".toList "B".toList (by decide) (by decide) (by decide) (by decide)).1

/-- C4 counterexample: the engine id first encountered in the timeline is
`SPEAKER_01`, yet it is mapped to `"B"` (not `"A"`, as first-encountered
assignment would demand), because `SPEAKER_00` sorts before it. -/
theorem C4_counterexample :
    ([⟨0, 1, "SPEAKER_01".toList⟩, ⟨1, 2, "SPEAKER_00".toList⟩] :
        List Turn).head?.map Turn.speaker = some "SPEAKER_01".toList ∧
    alookup (get_speaker_mapping [⟨0, 1, "SPEAKER_01".toList⟩, ⟨1, 2, "SPEAKER_00".toList⟩])
      "SPEAKER_01".toList = some ['B'] ∧
    (['B'] : Str) ≠ ['A'] := by
  refine ⟨rfl, by decide, by decide⟩

/-- C2 counterexample: without diarization, two contiguous segments (gap 0)
are merged into a single block, so the output has one labeled segment for
two input recognized segments. -/
theorem C2_counterexample :
    (assign_speakers_to_segments
        ⟨['t'], [⟨0, 1, ['a'], none, []⟩, ⟨1, 2, ['b'], none, []⟩], none, []⟩
        none).segments.length = 1 ∧ (1 : ℕ) ≠ 2 := by
  constructor
  · with_unfolding_all decide
  · omega

/-! ## Lemmas: the merger -/

lemma containsSub_cons (p : Str) (c : Char) (t : Str) :
    containsSub p (c :: t) = (startsWithCh p (c :: t) || containsSub p t) := by
  rw [containsSub, containsSub]
  rfl

lemma containsSub_append_right (p a b : Str) (h : containsSub p b = true) :
    containsSub p (a ++ b) = true := by
  induction a with
  | nil => exact h
  | cons c cs ih => rw [List.cons_append, containsSub_cons, ih, Bool.or_true]

lemma startsWith_arrow_head (s : Str) (h : startsWithCh arrowPat s = true) :
    ('-' : Char) ∈ s := by
  match s with
  | [] => cases h
  | c :: rest =>
    simp only [arrowPat, startsWithCh, Bool.and_eq_true, decide_eq_true_eq] at h
    rw [h.1]
    simp

lemma mem_of_containsSub_arrow (s : Str) (h : containsSub arrowPat s = true) :
    ('-' : Char) ∈ s := by
  rw [containsSub, List.any_eq_true] at h
  obtain ⟨tl, htl, hsw⟩ := h
  have hsuffix : tl <:+ s := by
    rw [← List.mem_tails]
    exact htl
  exact hsuffix.subset (startsWith_arrow_head tl hsw)

lemma digitChar_isDigit (n : ℕ) : isDigitCh (digitChar n) = true := by
  rcases n with _|_|_|_|_|_|_|_|_|_ <;> rfl

lemma natToStrAux_digits : ∀ (f n : ℕ) (c : Char), c ∈ natToStrAux f n → isDigitCh c = true := by
  intro f
  induction f with
  | zero => intro n c h; cases h
  | succ f ih =>
    intro n c h
    rw [natToStrAux] at h
    split at h
    · simp only [List.mem_singleton] at h
      rw [h]
      exact digitChar_isDigit n
    · rcases List.mem_append.mp h with h1 | h2
      · exact ih _ _ h1
      · simp only [List.mem_singleton] at h2
        rw [h2]
        exact digitChar_isDigit (n % 10)

lemma natToStr_no_arrow (n : ℕ) : containsSub arrowPat (natToStr n) = false := by
  rw [Bool.eq_false_iff]
  intro h
  have hm := mem_of_containsSub_arrow _ h
  have := natToStrAux_digits (n + 1) n '-' hm
  cases this

lemma isDigitsStr_no_arrow (s : Str) (h : isDigitsStr s = true) :
    containsSub arrowPat s = false := by
  rw [Bool.eq_false_iff]
  intro harr
  have hm := mem_of_containsSub_arrow _ harr
  rw [isDigitsStr, Bool.and_eq_true, List.all_eq_true] at h
  have := h.2 '-' hm
  cases this

lemma arrow_in_joined (x y : Str) : containsSub arrowPat (x ++ arrowSep ++ y) = true := by
  rw [List.append_assoc]
  apply containsSub_append_right
  show containsSub arrowPat (' ' :: '-' :: '-' :: '>' :: ' ' :: y) = true
  rw [containsSub_cons, containsSub_cons]
  have hsw : startsWithCh arrowPat ('-' :: '-' :: '>' :: ' ' :: y) = true := by
    simp [arrowPat, startsWithCh]
  rw [hsw]
  simp

lemma adjust_keeps_arrow (s : Str) (off : ℚ) (h : containsSub arrowPat s = true) :
    containsSub arrowPat (adjust_timestamps s off) = true := by
  rw [adjust_timestamps]
  split
  · split
    · exact arrow_in_joined _ _
    · exact h
  · exact h

lemma procLines_arrowFilter (fmt : SubFmt) (ls : List Str) : ∀ (c : ℕ) (off : ℚ),
    ((procLines fmt c off ls).1).filter (containsSub arrowPat) =
      ((ls.map pyStrip).filter (fun s => !s.isEmpty && containsSub arrowPat s)).map
        (fun l => adjust_timestamps l off) := by
  induction ls with
  | nil => intro c off; rfl
  | cons l rest ih =>
    intro c off
    rw [procLines, List.map_cons]
    by_cases hblank : pyStrip l = []
    · rw [if_pos hblank, ih]
      rw [List.filter_cons, hblank]
      simp
    · rw [if_neg hblank]
      have hne : (pyStrip l).isEmpty = false := by
        cases hp : pyStrip l with
        | nil => exact absurd hp hblank
        | cons a as => rfl
      by_cases hdig : fmt = SubFmt.srt ∧ isDigitsStr (pyStrip l) = true
      · rw [if_pos hdig]
        simp only [List.filter_cons]
        rw [natToStr_no_arrow, isDigitsStr_no_arrow _ hdig.2]
        simp only [hne, Bool.false_and, Bool.and_false, if_neg Bool.false_ne_true]
        exact ih c.succ off
      · rw [if_neg hdig]
        by_cases harr : containsSub arrowPat (pyStrip l) = true
        · rw [if_pos harr]
          simp only [List.filter_cons]
          rw [adjust_keeps_arrow _ _ harr, harr]
          simp [ih c off, hne]
        · rw [if_neg harr]
          have harr2 : containsSub arrowPat (pyStrip l) = false := by
            simpa using harr
          simp only [List.filter_cons, harr2]
          simp only [Bool.and_false, if_neg Bool.false_ne_true]
          exact ih c off

lemma msGo_arrowFilter (fmt : SubFmt) (files : List (List Str)) : ∀ (c : ℕ) (i : ℕ),
    (msGo fmt c ((i : ℚ) * (5 * 60)) (files.map some)).filter (containsSub arrowPat) =
      specArrowLines (5 * 60) fmt i files := by
  induction files with
  | nil => intro c i; rfl
  | cons ls rest ih =>
    intro c i
    rw [List.map_cons, msGo, List.filter_append, List.filter_cons]
    have hblank : containsSub arrowPat ([] : Str) = false := rfl
    rw [hblank]
    simp only [Bool.false_eq_true, if_neg Bool.false_ne_true]
    have hoff : (i : ℚ) * (5 * 60) + 5 * 60 = ((i + 1 : ℕ) : ℚ) * (5 * 60) := by
      push_cast
      ring
    rw [hoff, ih _ (i + 1), specArrowLines, procLines_arrowFilter]
    rfl

lemma mjGo_segments (chunks : List Transcription) : ∀ (acc : MergedJson) (i : ℕ),
    (mjGo acc ((i : ℚ) * (5 * 60)) (chunks.map some)).segments =
      acc.segments ++ specChunkSegs (5 * 60) i chunks := by
  induction chunks with
  | nil => intro acc i; simp [mjGo, specChunkSegs]
  | cons c rest ih =>
    intro acc i
    rw [List.map_cons, mjGo]
    have hoff : (i : ℚ) * (5 * 60) + 5 * 60 = ((i + 1 : ℕ) : ℚ) * (5 * 60) := by
      push_cast
      ring
    rw [hoff, ih _ (i + 1), specChunkSegs, List.append_assoc]

/-- C1 (corrected). The merge offset is the hard-coded `5 * 60 = 300`
seconds per chunk, not the configured `chunkDurationMinutes * 60`: a
segment with chunk-local time `t` in chunk `i` appears in the merged
structured output at `t + i * 300` exactly, and every timestamp line of
subtitle chunk `i` is shifted by the cumulative offset `i * 300`; the
claim's `i * D` holds only for the default `chunkDurationMinutes = 5`. -/
theorem C1_merge_offsets (chunks : List Transcription) (files : List (List Str))
    (fmt : SubFmt) :
    (merge_json_files (chunks.map some)).segments = specChunkSegs (5 * 60) 0 chunks ∧
    (merge_subtitle_files fmt (files.map some)).filter (containsSub arrowPat) =
      specArrowLines (5 * 60) fmt 0 files := by
  constructor
  · have h := mjGo_segments chunks ⟨[], [], none⟩ 0
    rw [Nat.cast_zero, zero_mul] at h
    rw [merge_json_files, h]
    rfl
  · have h := msGo_arrowFilter fmt files 1 0
    rw [Nat.cast_zero, zero_mul] at h
    rw [merge_subtitle_files, List.filter_append, h]
    cases fmt with
    | srt => rfl
    | vtt => rfl

/-- C1 counterexample: with `chunkDurationMinutes = 1` (so `D = 60`), the
claim places chunk 1's segment `[0,1]` at `[60,61]`; the code places it at
`[300,301]` because the merge offset is hard-coded to five minutes. -/
theorem C1_counterexample :
    (merge_json_files [some ⟨['x'], [⟨0, 1, ['x'], none, []⟩], none, []⟩,
        some ⟨['x'], [⟨0, 1, ['x'], none, []⟩], none, []⟩]).segments =
      [⟨0, 1, ['x'], none, []⟩, ⟨300, 301, ['x'], none, []⟩] ∧
    specChunkSegs 60 0 [⟨['x'], [⟨0, 1, ['x'], none, []⟩], none, []⟩,
        ⟨['x'], [⟨0, 1, ['x'], none, []⟩], none, []⟩] =
      [⟨0, 1, ['x'], none, []⟩, ⟨60, 61, ['x'], none, []⟩] ∧
    (300 : ℚ) ≠ 60 := by
  refine ⟨by with_unfolding_all decide, by with_unfolding_all decide, by norm_num⟩

/-! ## Claims C7, C10, C6 -/

lemma msGo_skip_none (fmt : SubFmt) (f2 : List (Option (List Str))) :
    ∀ (l : List (Option (List Str))) (c : ℕ) (off : ℚ),
      msGo fmt c off (l ++ none :: f2) = msGo fmt c off (l ++ f2) := by
  intro l
  induction l with
  | nil => intro c off; rfl
  | cons o l ih =>
    intro c off
    cases o with
    | none => exact ih c off
    | some lines =>
      rw [List.cons_append, List.cons_append, msGo, msGo, ih]

/-- C7 (corrected). A missing chunk file contributes nothing to the merged
subtitle output (its blank separator and offset bump included), and the
merge continues with the remaining chunks unchanged; but a malformed line
inside a present chunk is not skipped: a timestamp line that does not have
exactly two ` --> ` fields, or whose timestamps fail to parse, is copied
into the merged output unchanged. -/
theorem C7_malformed_chunks
    (fmt : SubFmt) (f1 f2 : List (Option (List Str))) (line : Str) (off : ℚ)
    (p0 p1 : Str) :
    (merge_subtitle_files fmt (f1 ++ none :: f2) = merge_subtitle_files fmt (f1 ++ f2)) ∧
    ((splitArrow line).length ≠ 2 → adjust_timestamps line off = line) ∧
    (splitArrow line = [p0, p1] → parse_timestamp (pyStrip p0) = none →
      adjust_timestamps line off = line) := by
  refine ⟨?_, ?_, ?_⟩
  · rw [merge_subtitle_files, merge_subtitle_files, msGo_skip_none]
  · intro hlen
    rw [adjust_timestamps]
    rcases hsp : splitArrow line with _ | ⟨a, _ | ⟨b, _ | _⟩⟩ <;> simp_all
  · intro hsp hparse
    rw [adjust_timestamps, hsp]
    simp only [hparse]

/-- C7 witness: skipping a missing file, a line with no arrow, and an
unparseable timestamp line, all passed through or skipped as stated. -/
theorem C7_witness :
    (merge_subtitle_files SubFmt.srt [none] = merge_subtitle_files SubFmt.srt []) ∧
    adjust_timestamps "no arrow".toList 7 = "no arrow".toList ∧
    adjust_timestamps "a --> b".toList 7 = "a --> b".toList := by
  refine ⟨(C7_malformed_chunks SubFmt.srt [] [] [] 0 [] []).1, ?_, ?_⟩
  · exact (C7_malformed_chunks SubFmt.srt [] [] "no arrow".toList 7 [] []).2.1 (by decide)
  · exact (C7_malformed_chunks SubFmt.srt [] [] "a --> b".toList 7 "a".toList
      "b".toList).2.2 (by decide) (by decide)

/-- C7 counterexample: a chunk whose only line is malformed (no marker
structure at all) still contributes that line verbatim to the merged
output, so its contribution is not skipped. -/
theorem C7_counterexample :
    merge_subtitle_files SubFmt.srt [some ["@@garbage@@".toList]] =
      ["@@garbage@@".toList, []] ∧
    merge_subtitle_files SubFmt.srt [] = [] := by
  constructor
  · with_unfolding_all decide
  · rfl

/-- C10 (confirmed). With diarization turns present, speaker assignment
preserves every segment's start, stop, text and remaining dictionary
entries (only the speaker field is set, and it is always set), and the
transcription record's full text, language and other entries are
unchanged. -/
theorem C10_assignment_frame (tr : Transcription) (timeline : List Turn) :
    (assign_speakers_to_segments tr (some timeline)).segments.map frameOf =
      tr.segments.map frameOf ∧
    ((assign_speakers_to_segments tr (some timeline)).segments.map
      (fun s => s.speaker)) =
      tr.segments.map (fun s => some (labelForSegment timeline s)) ∧
    (assign_speakers_to_segments tr (some timeline)).text = tr.text ∧
    (assign_speakers_to_segments tr (some timeline)).language = tr.language ∧
    (assign_speakers_to_segments tr (some timeline)).extra = tr.extra := by
  refine ⟨?_, ?_, rfl, rfl, rfl⟩
  · show (tr.segments.map _).map frameOf = _
    rw [List.map_map]
    rfl
  · show (tr.segments.map _).map _ = _
    rw [List.map_map]
    rfl

lemma srtGo_length (l : List Seg) : ∀ i : ℕ, (srtGo i l).length = 4 * l.length := by
  induction l with
  | nil => intro i; rfl
  | cons s rest ih =>
    intro i
    rw [srtGo]
    simp only [List.length_cons, ih (i + 1)]
    ring

lemma vttGo_length (l : List Seg) : (vttGo l).length = 3 * l.length := by
  induction l with
  | nil => rfl
  | cons s rest ih =>
    rw [vttGo]
    simp only [List.length_cons, ih]
    ring

/-- C6 (corrected). A segment whose text is empty after trimming
contributes nothing to the plain style (removing it does not change the
plain output, as long as some segment remains) and stays present in the
structured output; but both subtitle styles still emit a full block for it
(the SRT output always has four lines per segment, the VTT output three
plus the fixed header). -/
theorem C6_empty_text_segment (r : Transcription) (s : Seg) (pre post : List Seg)
    (hstrip : pyStrip s.text = []) (hne : pre ++ post ≠ []) :
    write_speaker_formatted_text { r with segments := pre ++ s :: post } =
      write_speaker_formatted_text { r with segments := pre ++ post } ∧
    (∀ r2 : Transcription, (save_transcript_srt r2).length = 4 * r2.segments.length ∧
      (save_transcript_vtt r2).length = 2 + 3 * r2.segments.length ∧
      (save_transcript_json r2).segments = r2.segments) := by
  constructor
  · have hbody : txtBody (pre ++ s :: post) = txtBody (pre ++ post) := by
      rw [txtBody, txtBody, List.flatMap_append, List.flatMap_append, List.flatMap_cons]
      rw [show txtSegOut s = [] from by rw [txtSegOut, if_pos hstrip]]
      rw [List.nil_append]
    have hne1 : pre ++ s :: post ≠ [] := by simp
    rw [write_speaker_formatted_text, write_speaker_formatted_text]
    simp only [if_neg hne1, if_neg hne]
    rw [hbody]
  · intro r2
    refine ⟨srtGo_length r2.segments 1, ?_, rfl⟩
    rw [save_transcript_vtt]
    simp only [List.length_cons, vttGo_length]
    omega

/-- C6 witness: removing an empty-text segment leaves the plain output
unchanged. -/
theorem C6_witness :
    write_speaker_formatted_text
        ⟨['t'], [⟨0, 1, "hi".toList, some ['A'], []⟩, ⟨1, 2, "  ".toList, some ['A'], []⟩],
          none, []⟩ =
      write_speaker_formatted_text ⟨['t'], [⟨0, 1, "hi".toList, some ['A'], []⟩], none, []⟩ :=
  (C6_empty_text_segment ⟨['t'], [], none, []⟩ ⟨1, 2, "  ".toList, some ['A'], []⟩
    [⟨0, 1, "hi".toList, some ['A'], []⟩] [] (by decide) (by simp)).1

/-- C6 counterexample: a single segment whose text strips to empty still
produces a complete SRT block (index, timestamps, `"A: "` payload), so it
does contribute a block to the subtitle styles. -/
theorem C6_counterexample :
    save_transcript_srt ⟨['t'], [⟨0, 1, "  ".toList, some ['A'], []⟩], none, []⟩ =
      [['1'], "00:00:00,000 --> 00:00:01,000".toList, "A: ".toList, []] ∧
    pyStrip "  ".toList = [] := by
  constructor
  · with_unfolding_all decide
  · decide

/-! ## Lemmas: timestamp formatting and parsing -/

lemma floor_nat_div (a b : ℕ) (hb : 0 < b) :
    ⌊(a : ℚ) / (b : ℚ)⌋ = ((a / b : ℕ) : ℤ) := by
  have hb2 : (0 : ℚ) < b := by exact_mod_cast hb
  rw [Int.floor_eq_iff]
  constructor
  · rw [Int.cast_natCast, le_div_iff₀ hb2]
    exact_mod_cast Nat.div_mul_le_self a b
  · rw [div_lt_iff₀ hb2]
    have h1 : a < (a / b + 1) * b := by
      have h2 := Nat.div_add_mod a b
      have h3 := Nat.mod_lt a hb
      calc a = b * (a / b) + a % b := h2.symm
        _ < b * (a / b) + b := by omega
        _ = (a / b + 1) * b := by ring
    push_cast
    exact_mod_cast h1

lemma pyMod_cast_div (k m : ℕ) (hm : 0 < m) :
    pyMod ((k : ℚ) / 1000) (m : ℚ) = ((k % (1000 * m) : ℕ) : ℚ) / 1000 := by
  have hdivs : ((k : ℚ) / 1000) / (m : ℚ) = (k : ℚ) / ((1000 * m : ℕ) : ℚ) := by
    push_cast
    ring
  rw [pyMod, hdivs, floor_nat_div k (1000 * m) (by positivity), Int.cast_natCast]
  have h2 : (1000 * m) * (k / (1000 * m)) + k % (1000 * m) = k := Nat.div_add_mod k (1000 * m)
  have h2q : ((1000 * m : ℕ) : ℚ) * ((k / (1000 * m) : ℕ) : ℚ)
      + ((k % (1000 * m) : ℕ) : ℚ) = (k : ℚ) := by
    exact_mod_cast h2
  rw [Nat.cast_mul] at h2q
  have h1000 : ((1000 : ℕ) : ℚ) = 1000 := by norm_num
  rw [h1000] at h2q
  linear_combination (-1 / 1000 : ℚ) * h2q

lemma digitVal_digitChar (d : ℕ) (h : d < 10) : digitVal (digitChar d) = d := by
  interval_cases d <;> rfl

lemma digitsToNat_append_singleton (s : Str) (c : Char) :
    digitsToNat (s ++ [c]) = 10 * digitsToNat s + digitVal c := by
  rw [digitsToNat, digitsToNat, List.foldl_append]
  rfl

lemma digitsToNat_natToStrAux : ∀ f n, n < f → digitsToNat (natToStrAux f n) = n := by
  intro f
  induction f with
  | zero => intro n h; omega
  | succ f ih =>
    intro n h
    rw [natToStrAux]
    split
    · rename_i h10
      simp [digitsToNat, digitVal_digitChar n h10]
    · rename_i h10
      rw [digitsToNat_append_singleton, ih (n / 10) (by omega),
        digitVal_digitChar (n % 10) (by omega)]
      omega

lemma digitsToNat_natToStr (n : ℕ) : digitsToNat (natToStr n) = n :=
  digitsToNat_natToStrAux (n + 1) n (by omega)

lemma digitsToNat_zeros (j : ℕ) (s : Str) :
    digitsToNat (List.replicate j '0' ++ s) = digitsToNat s := by
  induction j with
  | zero => rfl
  | succ j ih =>
    rw [List.replicate_succ, List.cons_append, digitsToNat, List.foldl_cons]
    have h0 : 10 * 0 + digitVal '0' = 0 := by decide
    rw [h0]
    exact ih

lemma natToStrAux_ne_nil (f n : ℕ) (h : n < f) : natToStrAux f n ≠ [] := by
  match f with
  | ff + 1 =>
    rw [natToStrAux]
    split
    · simp
    · simp

lemma natToStr_ne_nil (n : ℕ) : natToStr n ≠ [] :=
  natToStrAux_ne_nil (n + 1) n (by omega)

lemma natToStrAux_length_le : ∀ (f n j : ℕ), n < f → n < 10 ^ j → 1 ≤ j →
    (natToStrAux f n).length ≤ j := by
  intro f
  induction f with
  | zero => intro n j h; omega
  | succ f ih =>
    intro n j hnf hpow hj
    rw [natToStrAux]
    split
    · rename_i h10
      simpa using hj
    · rename_i h10
      push_neg at h10
      rw [List.length_append, List.length_singleton]
      have hj2 : 2 ≤ j := by
        by_contra hlt
        push_neg at hlt
        interval_cases j
        · rw [pow_one] at hpow
          omega
      have hdivpow : n / 10 < 10 ^ (j - 1) := by
        rw [Nat.div_lt_iff_lt_mul (by norm_num)]
        have hp : 10 ^ (j - 1) * 10 = 10 ^ j := by
          rw [← pow_succ]
          congr 1
          omega
        rw [hp]
        exact hpow
      have hrec := ih (n / 10) (j - 1) (by omega) hdivpow (by omega)
      omega

lemma padZeros_length (w : ℕ) (s : Str) : (padZeros w s).length = max w s.length := by
  rw [padZeros, List.length_append, List.length_replicate]
  omega

lemma isDigit_not_ws (c : Char) (h : isDigitCh c = true) : isPyWs c = false := by
  rw [isDigitCh, Bool.and_eq_true, decide_eq_true_eq, decide_eq_true_eq] at h
  rw [isPyWs]
  have h1 : ¬(c = ' ') := by rintro rfl; exact absurd h.1 (by decide)
  have h2 : ¬(c = '\t') := by rintro rfl; exact absurd h.1 (by decide)
  have h3 : ¬(c = '\n') := by rintro rfl; exact absurd h.1 (by decide)
  have h4 : ¬(c = '\x0d') := by rintro rfl; exact absurd h.1 (by decide)
  have h5 : ¬(c = '\x0b') := by rintro rfl; exact absurd h.1 (by decide)
  have h6 : ¬(c = '\x0c') := by rintro rfl; exact absurd h.1 (by decide)
  simp [h1, h2, h3, h4, h5, h6]

lemma dropWhile_eq_self_of_none {p : Char → Bool} {s : Str} (h : ∀ c ∈ s, p c = false) :
    s.dropWhile p = s := by
  cases s with
  | nil => rfl
  | cons a rest =>
    rw [List.dropWhile_cons, h a (by simp)]
    simp

lemma pyStrip_eq_self (s : Str) (h : ∀ c ∈ s, isPyWs c = false) : pyStrip s = s := by
  rw [pyStrip, dropWhile_eq_self_of_none h,
    dropWhile_eq_self_of_none (fun c hc => h c (List.mem_reverse.mp hc)),
    List.reverse_reverse]

lemma splitChAux_of_no_sep (sep : Char) :
    ∀ (s : Str), sep ∉ s → ∀ acc, splitChAux sep acc s = [acc.reverse ++ s]
  | [], _, acc => by simp [splitChAux]
  | c :: rest, h, acc => by
    have hc : ¬(c = sep) := fun hc => h (hc ▸ List.mem_cons_self c rest)
    have hrest : sep ∉ rest := fun hm => h (List.mem_cons_of_mem c hm)
    rw [splitChAux, if_neg hc, splitChAux_of_no_sep sep rest hrest (c :: acc)]
    simp

lemma splitChAux_append_sep (sep : Char) :
    ∀ (a : Str), sep ∉ a → ∀ acc rest,
      splitChAux sep acc (a ++ sep :: rest) = (acc.reverse ++ a) :: splitChAux sep [] rest
  | [], _, acc, rest => by
    rw [List.nil_append, splitChAux, if_pos rfl]
    simp
  | c :: a2, h, acc, rest => by
    have hc : ¬(c = sep) := fun hc => h (hc ▸ List.mem_cons_self c a2)
    have ha2 : sep ∉ a2 := fun hm => h (List.mem_cons_of_mem c hm)
    rw [List.cons_append, splitChAux, if_neg hc,
      splitChAux_append_sep sep a2 ha2 (c :: acc) rest]
    simp

lemma splitCh_three (sep : Char) (A B C : Str) (hA : sep ∉ A) (hB : sep ∉ B)
    (hC : sep ∉ C) :
    splitCh sep (A ++ sep :: (B ++ sep :: C)) = [A, B, C] := by
  rw [splitCh, splitChAux_append_sep sep A hA [] (B ++ sep :: C),
    splitChAux_append_sep sep B hB [] C, splitChAux_of_no_sep sep C hC []]
  simp

lemma parseDigits_of_digits (s : Str) (hne : s ≠ []) (hdg : ∀ c ∈ s, isDigitCh c = true) :
    parseDigits s = some (digitsToNat s) := by
  rw [parseDigits, if_pos ⟨hne, List.all_eq_true.mpr hdg⟩]

lemma pyInt_of_digits (s : Str) (hne : s ≠ []) (hdg : ∀ c ∈ s, isDigitCh c = true) :
    pyInt s = some ((digitsToNat s : ℕ) : ℤ) := by
  have hws : ∀ c ∈ s, isPyWs c = false := fun c hc => isDigit_not_ws c (hdg c hc)
  rw [pyInt, pyStrip_eq_self s hws]
  cases s with
  | nil => exact absurd rfl hne
  | cons c rest =>
    have hcdig := hdg c (by simp)
    split
    · rename_i r heq
      rw [List.cons.injEq] at heq
      rw [heq.1] at hcdig
      exact absurd hcdig (by decide)
    · rename_i r heq
      rw [List.cons.injEq] at heq
      rw [heq.1] at hcdig
      exact absurd hcdig (by decide)
    · rw [parseDigits_of_digits _ hne hdg, Option.map_some']

lemma not_mem_of_digits (x : Char) (hx : isDigitCh x = false) (s : Str)
    (hdg : ∀ c ∈ s, isDigitCh c = true) : x ∉ s := by
  intro hm
  rw [hdg x hm] at hx
  cases hx

lemma padded_digits (w n : ℕ) : ∀ c ∈ padZeros w (natToStr n), isDigitCh c = true := by
  intro c hc
  rcases List.mem_append.mp hc with h1 | h2
  · rw [List.eq_of_mem_replicate h1]
    rfl
  · exact natToStrAux_digits _ _ c h2

lemma pyInt_padded (w n : ℕ) : pyInt (padZeros w (natToStr n)) = some ((n : ℕ) : ℤ) := by
  have hne : padZeros w (natToStr n) ≠ [] := by
    have h2 : natToStr n ≠ [] := natToStrAux_ne_nil _ _ (by omega)
    rw [padZeros]
    intro hem
    rcases List.append_eq_nil.mp hem with ⟨-, h4⟩
    exact h2 h4
  rw [pyInt_of_digits _ hne (padded_digits w n), padZeros, digitsToNat_zeros,
    digitsToNat_natToStr]

lemma pyFloat_digits_dot (A B : Str) (hA : A ≠ []) (hB : B ≠ [])
    (hdA : ∀ c ∈ A, isDigitCh c = true) (hdB : ∀ c ∈ B, isDigitCh c = true) :
    pyFloat (A ++ '.' :: B) =
      some ((digitsToNat A : ℚ) + (digitsToNat B : ℚ) / 10 ^ B.length) := by
  have hws : ∀ c ∈ A ++ '.' :: B, isPyWs c = false := by
    intro c hc
    rcases List.mem_append.mp hc with h1 | h2
    · exact isDigit_not_ws c (hdA c h1)
    · rcases List.mem_cons.mp h2 with h3 | h4
      · rw [h3]
        rfl
      · exact isDigit_not_ws c (hdB c h4)
  have hsplit : splitCh '.' (A ++ '.' :: B) = [A, B] := by
    rw [splitCh, splitChAux_append_sep '.' A (not_mem_of_digits '.' (by decide) A hdA) [] B,
      splitChAux_of_no_sep '.' B (not_mem_of_digits '.' (by decide) B hdB) []]
    simp
  have hbody : pyFloatBody (A ++ '.' :: B) =
      some ((digitsToNat A : ℚ) + (digitsToNat B : ℚ) / 10 ^ B.length) := by
    simp only [pyFloatBody, hsplit]
    rw [if_neg (by rintro ⟨h1, -⟩; exact hA h1), if_neg hA, if_neg hB,
      parseDigits_of_digits A hA hdA, parseDigits_of_digits B hB hdB]
  rw [pyFloat, pyStrip_eq_self _ hws]
  obtain ⟨c, A2, rfl⟩ : ∃ c A2, A = c :: A2 := by
    cases A with
    | nil => exact absurd rfl hA
    | cons c A2 => exact ⟨c, A2, rfl⟩
  have hcdig := hdA c (by simp)
  rw [List.cons_append]
  split
  · rename_i r heq
    rw [List.cons.injEq] at heq
    rw [heq.1] at hcdig
    exact absurd hcdig (by decide)
  · rename_i r heq
    rw [List.cons.injEq] at heq
    rw [heq.1] at hcdig
    exact absurd hcdig (by decide)
  · rw [← List.cons_append, hbody]

lemma pyFloat_padded (w : ℕ) (A B : Str) (hA : A ≠ []) (hB : B ≠ [])
    (hdA : ∀ c ∈ A, isDigitCh c = true) (hdB : ∀ c ∈ B, isDigitCh c = true) :
    pyFloat (padZeros w (A ++ '.' :: B)) =
      some ((digitsToNat A : ℚ) + (digitsToNat B : ℚ) / 10 ^ B.length) := by
  have hdA2 : ∀ c ∈ List.replicate (w - (A ++ '.' :: B).length) '0' ++ A,
      isDigitCh c = true := by
    intro c hc
    rcases List.mem_append.mp hc with h1 | h2
    · rw [List.eq_of_mem_replicate h1]
      rfl
    · exact hdA c h2
  have hA2 : List.replicate (w - (A ++ '.' :: B).length) '0' ++ A ≠ [] := by simp [hA]
  rw [padZeros, ← List.append_assoc, pyFloat_digits_dot _ B hA2 hB hdA2 hdB,
    digitsToNat_zeros]

lemma intToStr_natCast (n : ℕ) : intToStr ((n : ℕ) : ℤ) = natToStr n := by
  rw [intToStr, if_neg (by omega), Int.toNat_natCast]

lemma fmt063_nat (S : ℕ) :
    fmt063 ((S : ℚ) / 1000) =
      padZeros 6 (natToStr (S / 1000) ++ '.' :: padZeros 3 (natToStr (S % 1000))) := by
  have h1 : (S : ℚ) / 1000 * 1000 = (S : ℚ) := by field_simp
  rw [fmt063, h1, round_natCast, Int.toNat_natCast]

lemma formatCore_eq (k : ℕ) :
    formatCore ((k : ℚ) / 1000) =
      padZeros 2 (natToStr (k / 3600000)) ++ ':' ::
        (padZeros 2 (natToStr (k % 3600000 / 60000)) ++ ':' ::
          padZeros 6 (natToStr (k % 60000 / 1000)
            ++ '.' :: padZeros 3 (natToStr (k % 60000 % 1000)))) := by
  have hh : ⌊(k : ℚ) / 1000 / 3600⌋ = ((k / 3600000 : ℕ) : ℤ) := by
    have hdiv : (k : ℚ) / 1000 / 3600 = (k : ℚ) / ((3600000 : ℕ) : ℚ) := by
      push_cast
      ring
    rw [hdiv, floor_nat_div k 3600000 (by norm_num)]
  have hm1 : pyMod ((k : ℚ) / 1000) 3600 = ((k % 3600000 : ℕ) : ℚ) / 1000 := by
    have h := pyMod_cast_div k 3600 (by norm_num)
    norm_num at h
    exact h
  have hmin : ⌊((k % 3600000 : ℕ) : ℚ) / 1000 / 60⌋ = ((k % 3600000 / 60000 : ℕ) : ℤ) := by
    have hdiv : ((k % 3600000 : ℕ) : ℚ) / 1000 / 60 =
        ((k % 3600000 : ℕ) : ℚ) / ((60000 : ℕ) : ℚ) := by
      push_cast
      ring
    rw [hdiv, floor_nat_div _ 60000 (by norm_num)]
  have hsec : pyMod ((k : ℚ) / 1000) 60 = ((k % 60000 : ℕ) : ℚ) / 1000 := by
    have h := pyMod_cast_div k 60 (by norm_num)
    norm_num at h
    exact h
  rw [formatCore, hh, intToStr_natCast, hm1, hmin, intToStr_natCast, hsec, fmt063_nat]

lemma secondsField_chars (a b : ℕ) :
    ∀ c ∈ padZeros 6 (natToStr a ++ '.' :: padZeros 3 (natToStr b)),
      isDigitCh c = true ∨ c = '.' := by
  intro c hc
  rw [padZeros] at hc
  rcases List.mem_append.mp hc with h1 | h2
  · exact Or.inl (by rw [List.eq_of_mem_replicate h1]; rfl)
  rcases List.mem_append.mp h2 with h3 | h4
  · exact Or.inl (natToStrAux_digits _ _ c h3)
  rcases List.mem_cons.mp h4 with h5 | h6
  · exact Or.inr h5
  · exact Or.inl (padded_digits 3 b c h6)

lemma formatCore_chars (k : ℕ) :
    ∀ c ∈ formatCore ((k : ℚ) / 1000), isDigitCh c = true ∨ c = ':' ∨ c = '.' := by
  rw [formatCore_eq]
  intro c hc
  rcases List.mem_append.mp hc with h1 | h2
  · exact Or.inl (padded_digits _ _ c h1)
  rcases List.mem_cons.mp h2 with h3 | h4
  · exact Or.inr (Or.inl h3)
  rcases List.mem_append.mp h4 with h5 | h6
  · exact Or.inl (padded_digits _ _ c h5)
  rcases List.mem_cons.mp h6 with h7 | h8
  · exact Or.inr (Or.inl h7)
  · rcases secondsField_chars _ _ c h8 with h9 | h9
    · exact Or.inl h9
    · exact Or.inr (Or.inr h9)

lemma comma_not_in_core (k : ℕ) : (',' : Char) ∉ formatCore ((k : ℚ) / 1000) := by
  intro hm
  rcases formatCore_chars k ',' hm with h | h | h
  · exact absurd h (by decide)
  · exact absurd h (by decide)
  · exact absurd h (by decide)

lemma map_comma_id (s : Str) (h : (',' : Char) ∉ s) :
    s.map (fun c => if c = ',' then '.' else c) = s := by
  have hpt : ∀ c ∈ s, (if c = ',' then '.' else c) = id c := by
    intro c hc
    have hnc : ¬(c = ',') := fun he => h (he ▸ hc)
    rw [if_neg hnc]
    rfl
  rw [List.map_congr_left hpt, List.map_id]

lemma parse_of_core (k : ℕ) (X : Str)
    (hX : X.map (fun c => if c = ',' then '.' else c) = formatCore ((k : ℚ) / 1000)) :
    parse_timestamp X = some ((k : ℚ) / 1000) := by
  have hS : k % 60000 % 1000 < 1000 := Nat.mod_lt (k % 60000) (by norm_num)
  have hBlen : (padZeros 3 (natToStr (k % 60000 % 1000))).length = 3 := by
    rw [padZeros_length]
    have hle : (natToStr (k % 60000 % 1000)).length ≤ 3 := by
      rw [natToStr]
      exact natToStrAux_length_le _ _ 3 (by omega) (lt_of_lt_of_le hS (by norm_num))
        (by norm_num)
    omega
  have hF : pyFloat (padZeros 6 (natToStr (k % 60000 / 1000)
      ++ '.' :: padZeros 3 (natToStr (k % 60000 % 1000)))) =
      some (((k % 60000 / 1000 : ℕ) : ℚ) + ((k % 60000 % 1000 : ℕ) : ℚ) / 1000) := by
    rw [pyFloat_padded 6 (natToStr (k % 60000 / 1000))
      (padZeros 3 (natToStr (k % 60000 % 1000)))
      (natToStr_ne_nil _)
      (by rw [padZeros]; simp [natToStr_ne_nil])
      (fun c hc => natToStrAux_digits _ _ c hc) (padded_digits 3 _),
      digitsToNat_natToStr, hBlen, padZeros, digitsToNat_zeros, digitsToNat_natToStr]
    norm_num
  rw [parse_timestamp, hX, formatCore_eq k,
    splitCh_three ':'
      (padZeros 2 (natToStr (k / 3600000)))
      (padZeros 2 (natToStr (k % 3600000 / 60000)))
      (padZeros 6 (natToStr (k % 60000 / 1000) ++ '.' :: padZeros 3 (natToStr (k % 60000 % 1000))))
      (not_mem_of_digits ':' (by decide) _ (padded_digits _ _))
      (not_mem_of_digits ':' (by decide) _ (padded_digits _ _))
      (by
        intro hm
        rcases secondsField_chars _ _ ':' hm with h | h
        · exact absurd h (by decide)
        · exact absurd h (by decide))]
  simp only [pyInt_padded, hF]
  have hnat : 3600000 * (k / 3600000) + 60000 * (k % 3600000 / 60000)
      + 1000 * (k % 60000 / 1000) + k % 60000 % 1000 = k := by omega
  have hq := congrArg (Nat.cast : ℕ → ℚ) hnat
  push_cast at hq
  congr 1
  rw [Int.cast_natCast, Int.cast_natCast]
  linear_combination (1 / 1000 : ℚ) * hq

lemma splitChAux_length (sep : Char) :
    ∀ (t : Str) (acc : Str), (splitChAux sep acc t).length = countCh sep t + 1
  | [], acc => by simp [splitChAux, countCh]
  | c :: rest, acc => by
    rw [splitChAux]
    by_cases hc : c = sep
    · rw [if_pos hc, List.length_cons, splitChAux_length sep rest []]
      simp [countCh, List.countP_cons, hc]
    · rw [if_neg hc, splitChAux_length sep rest (c :: acc)]
      simp [countCh, List.countP_cons, hc]

lemma countCh_map_comma (s : Str) :
    countCh ':' (s.map (fun c => if c = ',' then '.' else c)) = countCh ':' s := by
  rw [countCh, countCh, List.countP_map]
  apply List.countP_congr
  intro a _
  by_cases ha : a = ','
  · subst ha
    decide
  · simp [Function.comp, ha]

/-- C9 (confirmed). For every non-negative exact-millisecond time
`k / 1000`, formatting as a subtitle timestamp and parsing the result
returns the time exactly, in both the comma (SRT) and period (VTT)
millisecond dialects; and parsing any string that does not have the
three-field `HH:MM:SS` shape (a number of colons different from two)
returns `none`. -/
theorem C9_timestamp_roundtrip (k : ℕ) (s : Str) (hs : countCh ':' s ≠ 2) :
    parse_timestamp (format_timestamp ((k : ℚ) / 1000) true) = some ((k : ℚ) / 1000) ∧
    parse_timestamp (format_timestamp ((k : ℚ) / 1000) false) = some ((k : ℚ) / 1000) ∧
    parse_timestamp s = none := by
  refine ⟨?_, ?_, ?_⟩
  · apply parse_of_core k
    rw [format_timestamp, if_pos rfl, List.map_map]
    have hpt : ∀ c ∈ formatCore ((k : ℚ) / 1000),
        ((fun c => if c = ',' then '.' else c) ∘ fun c => if c = '.' then ',' else c) c
          = id c := by
      intro c hc
      have hnc : ¬(c = ',') := fun he => comma_not_in_core k (he ▸ hc)
      by_cases hd : c = '.'
      · simp [Function.comp, hd]
      · simp [Function.comp, hd, hnc]
    rw [List.map_congr_left hpt, List.map_id]
  · apply parse_of_core k
    rw [format_timestamp, if_neg (by simp)]
    exact map_comma_id _ (comma_not_in_core k)
  · rw [parse_timestamp]
    have hlen : (splitCh ':' (s.map (fun c => if c = ',' then '.' else c))).length =
        countCh ':' s + 1 := by
      rw [splitCh, splitChAux_length, countCh_map_comma]
    rcases hp : splitCh ':' (s.map (fun c => if c = ',' then '.' else c)) with
      _ | ⟨a, _ | ⟨b, _ | ⟨c, _ | _⟩⟩⟩ <;> rw [hp] at hlen <;>
      first
      | rfl
      | · exfalso
          simp only [List.length_cons, List.length_nil] at hlen
          omega

/-- C9 witness: the concrete time 3661.001 s round-trips through both
dialects, and a colon-free string parses to `none`. -/
theorem C9_witness :
    parse_timestamp (format_timestamp ((3661001 : ℕ) / 1000 : ℚ) true) =
      some ((3661001 : ℕ) / 1000 : ℚ) ∧
    parse_timestamp (format_timestamp ((3661001 : ℕ) / 1000 : ℚ) false) =
      some ((3661001 : ℕ) / 1000 : ℚ) ∧
    parse_timestamp "ab".toList = none := by
  have h := C9_timestamp_roundtrip 3661001 "ab".toList (by decide)
  exact h

/-! ## Lemmas: the sentence splitter -/

lemma startsWithCh_length : ∀ (p t : Str), startsWithCh p t = true → p.length ≤ t.length
  | [], _, _ => by simp
  | _ :: _, [], h => by cases h
  | p :: ps, c :: cs, h => by
    rw [startsWithCh, Bool.and_eq_true] at h
    have := startsWithCh_length ps cs h.2
    simpa using this

lemma startsWithCh_self_append (p r : Str) : startsWithCh p (p ++ r) = true := by
  induction p with
  | nil => rfl
  | cons c cs ih => simp [startsWithCh, ih]

lemma startsWithCh_take : ∀ (q : Str) (n : ℕ) (t : Str),
    startsWithCh q (t.take n) = true → startsWithCh q t = true
  | [], _, _, _ => rfl
  | qh :: qt, 0, t, h => by cases h
  | qh :: qt, n + 1, [], h => by cases h
  | qh :: qt, n + 1, c :: cs, h => by
    rw [List.take_succ_cons] at h
    rw [startsWithCh, Bool.and_eq_true] at h ⊢
    exact ⟨h.1, startsWithCh_take qt n cs h.2⟩

lemma startsWithCh_append_le : ∀ (q a b : Str), startsWithCh q (a ++ b) = true →
    q.length ≤ a.length → startsWithCh q a = true
  | [], _, _, _, _ => rfl
  | qh :: qt, [], b, _, hl => by simp at hl
  | qh :: qt, c :: a2, b, h, hl => by
    rw [List.cons_append, startsWithCh, Bool.and_eq_true] at h
    rw [startsWithCh, Bool.and_eq_true]
    exact ⟨h.1, startsWithCh_append_le qt a2 b h.2 (by simpa using hl)⟩

lemma startsWithCh_append_drop : ∀ (a q b : Str), startsWithCh q (a ++ b) = true →
    a.length ≤ q.length → startsWithCh (q.drop a.length) b = true
  | [], q, b, h, _ => h
  | c :: a2, [], b, _, hl => by simp at hl
  | c :: a2, qh :: qt, b, h, hl => by
    rw [List.cons_append, startsWithCh, Bool.and_eq_true] at h
    have := startsWithCh_append_drop a2 qt b h.2 (by simpa using hl)
    simpa using this

lemma restoreAux_fuel : ∀ (f1 : ℕ) (t : Str) (f2 : ℕ), t.length ≤ f1 → t.length ≤ f2 →
    restoreAux f1 t = restoreAux f2 t := by
  intro f1
  induction f1 with
  | zero =>
    intro t f2 h1 h2
    have ht : t = [] := List.length_eq_zero.mp (by omega)
    subst ht
    cases f2 <;> rfl
  | succ f1 ih =>
    intro t f2 h1 h2
    cases t with
    | nil => cases f2 <;> rfl
    | cons c rest =>
      obtain ⟨f2p, rfl⟩ : ∃ f2p, f2 = f2p + 1 := by
        cases f2 with
        | zero => simp at h2
        | succ n => exact ⟨n, rfl⟩
      rw [restoreAux, restoreAux]
      rw [List.length_cons] at h1 h2
      by_cases hsw : startsWithCh phStr (c :: rest) = true
      · have hlen := startsWithCh_length phStr (c :: rest) hsw
        rw [if_pos hsw, if_pos hsw]
        congr 1
        apply ih
        · rw [List.length_drop]
          simp only [List.length_cons]
          omega
        · rw [List.length_drop]
          simp only [List.length_cons]
          omega
      · rw [if_neg hsw, if_neg hsw]
        congr 1
        apply ih <;> omega

lemma ciPrefixCh_length : ∀ (a t : Str), ciPrefixCh a t = true → a.length ≤ t.length
  | [], _, _ => by simp
  | _ :: _, [], h => by cases h
  | p :: ps, c :: cs, h => by
    rw [ciPrefixCh, Bool.and_eq_true] at h
    have := ciPrefixCh_length ps cs h.2
    simpa using this

lemma tryAbbrev_spec (t : Str) (n : ℕ) (h : tryAbbrev t = some n) :
    ∃ a, a ∈ abbrevs ∧ n = a.length ∧ ciPrefixCh a t = true ∧
      ((t.drop a.length).head? == some '.') = true := by
  rw [tryAbbrev] at h
  obtain ⟨a, hfind, hlen⟩ := Option.map_eq_some'.mp h
  have hpred := List.find?_some hfind
  rw [Bool.and_eq_true] at hpred
  exact ⟨a, List.mem_of_find?_eq_some hfind, hlen.symm, hpred.1, hpred.2⟩

lemma tryAbbrev_bounds (t : Str) (n : ℕ) (h : tryAbbrev t = some n) :
    2 ≤ n ∧ n + 1 ≤ t.length := by
  obtain ⟨a, hmem, hn, hci, hdot⟩ := tryAbbrev_spec t n h
  have hlen2 : ∀ x ∈ abbrevs, 2 ≤ x.length := by decide
  have hle := ciPrefixCh_length a t hci
  have hne : t.drop a.length ≠ [] := by
    intro hnil
    rw [hnil] at hdot
    simp at hdot
  have hlt : a.length < t.length := by
    by_contra h6
    push_neg at h6
    rw [List.drop_eq_nil_of_le h6] at hne
    exact hne rfl
  exact ⟨hn ▸ hlen2 a hmem, by omega⟩

lemma protectAux_fuel : ∀ (f1 : ℕ) (t : Str) (f2 : ℕ), t.length ≤ f1 → t.length ≤ f2 →
    protectAux f1 t = protectAux f2 t := by
  intro f1
  induction f1 with
  | zero =>
    intro t f2 h1 h2
    have ht : t = [] := List.length_eq_zero.mp (by omega)
    subst ht
    cases f2 <;> rfl
  | succ f1 ih =>
    intro t f2 h1 h2
    cases t with
    | nil => cases f2 <;> rfl
    | cons c rest =>
      obtain ⟨f2p, rfl⟩ : ∃ f2p, f2 = f2p + 1 := by
        cases f2 with
        | zero => simp at h2
        | succ n => exact ⟨n, rfl⟩
      rw [protectAux, protectAux]
      rw [List.length_cons] at h1 h2
      cases htry : tryAbbrev (c :: rest) with
      | some n =>
        obtain ⟨-, hb2⟩ := tryAbbrev_bounds _ n htry
        rw [List.length_cons] at hb2
        show List.take n (c :: rest) ++ phStr ++ protectAux f1 (List.drop (n + 1) (c :: rest))
          = List.take n (c :: rest) ++ phStr ++ protectAux f2p (List.drop (n + 1) (c :: rest))
        have hd1 : (List.drop (n + 1) (c :: rest)).length ≤ f1 := by
          rw [List.length_drop]
          simp only [List.length_cons]
          omega
        have hd2 : (List.drop (n + 1) (c :: rest)).length ≤ f2p := by
          rw [List.length_drop]
          simp only [List.length_cons]
          omega
        rw [ih (List.drop (n + 1) (c :: rest)) f2p hd1 hd2]
      | none =>
        show c :: protectAux f1 rest = c :: protectAux f2p rest
        rw [ih rest f2p (by omega) (by omega)]

lemma protectAux_succ_some (f : ℕ) (c : Char) (rest : Str) (n : ℕ)
    (h : tryAbbrev (c :: rest) = some n) :
    protectAux (f + 1) (c :: rest) =
      (c :: rest).take n ++ phStr ++ protectAux f ((c :: rest).drop (n + 1)) := by
  rw [protectAux, h]

lemma protectAux_succ_none (f : ℕ) (c : Char) (rest : Str)
    (h : tryAbbrev (c :: rest) = none) :
    protectAux (f + 1) (c :: rest) = c :: protectAux f rest := by
  rw [protectAux, h]

lemma protect_cons_none (c : Char) (rest : Str) (h : tryAbbrev (c :: rest) = none) :
    protect (c :: rest) = c :: protect rest := by
  show protectAux (rest.length + 1) (c :: rest) = _
  rw [protectAux_succ_none rest.length c rest h]
  rfl

lemma protect_cons_some (c : Char) (rest : Str) (n : ℕ)
    (h : tryAbbrev (c :: rest) = some n) :
    protect (c :: rest) =
      (c :: rest).take n ++ phStr ++ protect ((c :: rest).drop (n + 1)) := by
  obtain ⟨hn2, hb2⟩ := tryAbbrev_bounds _ n h
  have hlen : ((c :: rest).drop (n + 1)).length ≤ rest.length := by
    rw [List.length_drop, List.length_cons]
    omega
  show protectAux (rest.length + 1) (c :: rest) = _
  rw [protectAux_succ_some rest.length c rest n h,
    protectAux_fuel rest.length ((c :: rest).drop (n + 1))
      ((c :: rest).drop (n + 1)).length hlen (le_refl _)]
  rfl

lemma restore_cons_neg (c : Char) (X : Str)
    (h : startsWithCh phStr (c :: X) = false) :
    restore (c :: X) = c :: restore X := by
  show restoreAux (X.length + 1) (c :: X) = _
  rw [restoreAux, if_neg (by rw [h]; exact Bool.false_ne_true)]
  rfl

lemma restore_append_no_lt : ∀ (a r : Str), (∀ x ∈ a, x ≠ '<') →
    restore (a ++ r) = a ++ restore r
  | [], _, _ => rfl
  | c :: a2, r, h => by
    have hc : c ≠ '<' := h c (List.mem_cons_self c a2)
    have hsw : startsWithCh phStr (c :: (a2 ++ r)) = false := by
      simp [phStr, startsWithCh, Ne.symm hc]
    rw [List.cons_append, restore_cons_neg c (a2 ++ r) hsw,
      restore_append_no_lt a2 r (fun x hx => h x (List.mem_cons_of_mem c hx))]
    rfl

lemma restore_ph_append (r : Str) : restore (phStr ++ r) = '.' :: restore r := by
  have h8 : (phStr ++ r).length = (7 + r.length) + 1 := by
    rw [List.length_append]
    have hp : phStr.length = 8 := rfl
    rw [hp]
    omega
  rw [restore, h8]
  show restoreAux ((7 + r.length) + 1) ('<' :: (abbrevTail ++ r)) = _
  rw [restoreAux, if_pos (show startsWithCh phStr ('<' :: (abbrevTail ++ r)) = true from
    startsWithCh_self_append phStr r)]
  have hdrop : ('<' :: (abbrevTail ++ r)).drop 8 = r := List.drop_left phStr r
  rw [hdrop, restoreAux_fuel (7 + r.length) r r.length (by omega) (le_refl _)]
  rfl

lemma ciPrefix_mem : ∀ (a t : Str), ciPrefixCh a t = true →
    ∀ x ∈ t.take a.length, ∃ y ∈ a, y.toLower = x.toLower
  | [], t, _, x, hx => by simp at hx
  | p :: ps, [], h, x, hx => by cases h
  | p :: ps, c :: cs, h, x, hx => by
    rw [ciPrefixCh, Bool.and_eq_true, decide_eq_true_eq] at h
    rw [List.length_cons, List.take_succ_cons] at hx
    rcases List.mem_cons.mp hx with hxc | hxs
    · exact ⟨p, List.mem_cons_self p ps, by rw [h.1, hxc]⟩
    · obtain ⟨y, hy, hyx⟩ := ciPrefix_mem ps cs h.2 x hxs
      exact ⟨y, List.mem_cons_of_mem p hy, hyx⟩

lemma abbrev_chars_ne_lt : ∀ a ∈ abbrevs, ∀ y ∈ a, y.toLower ≠ '<' := by decide

lemma take_chars_ne_lt (a t : Str) (hci : ciPrefixCh a t = true) (ha : a ∈ abbrevs) :
    ∀ x ∈ t.take a.length, x ≠ '<' := by
  intro x hx he
  obtain ⟨y, hy, hyl⟩ := ciPrefix_mem a t hci x hx
  rw [he] at hyl
  have hlt : ('<' : Char).toLower = '<' := by decide
  exact abbrev_chars_ne_lt a ha y hy (hyl.trans hlt)

lemma take_dot_drop (t : Str) (n : ℕ) (hdot : (t.drop n).head? = some '.') :
    t.take n ++ '.' :: t.drop (n + 1) = t := by
  have htail : (t.drop n).tail = t.drop (n + 1) := List.tail_drop t n
  cases hd : t.drop n with
  | nil => rw [hd] at hdot; cases hdot
  | cons c cs =>
    rw [hd] at hdot
    simp only [List.head?_cons, Option.some.injEq] at hdot
    subst hdot
    have hcs : t.drop (n + 1) = cs := by
      rw [← htail, hd]
      rfl
    rw [hcs, ← hd]
    exact List.take_append_drop n t

lemma containsSub_tail (p : Str) (c : Char) (t : Str)
    (h : containsSub p (c :: t) = false) : containsSub p t = false := by
  simp [containsSub_cons] at h
  exact h.2

lemma containsSub_drop : ∀ (k : ℕ) (p t : Str), containsSub p t = false →
    containsSub p (t.drop k) = false
  | 0, _, _, h => h
  | _ + 1, _, [], h => h
  | k + 1, p, c :: rest, h => by
    rw [List.drop_succ_cons]
    exact containsSub_drop k p rest (containsSub_tail p c rest h)

lemma startsWith_protect : ∀ (N : ℕ) (u : Str), u.length ≤ N → ∀ (q : Str), q ≠ [] →
    (∀ x ∈ q, x ≠ '<') → startsWithCh q (protect u) = true → startsWithCh q u = true := by
  intro N
  induction N with
  | zero =>
    intro u hu q hq _ hsw
    have hun : u = [] := List.length_eq_zero.mp (by omega)
    subst hun
    cases q with
    | nil => exact absurd rfl hq
    | cons a b => cases hsw
  | succ N ih =>
    intro u hu q hq hqlt hsw
    cases u with
    | nil =>
      cases q with
      | nil => exact absurd rfl hq
      | cons a b => cases hsw
    | cons c rest =>
      rw [List.length_cons] at hu
      cases htry : tryAbbrev (c :: rest) with
      | none =>
        rw [protect_cons_none c rest htry] at hsw
        cases q with
        | nil => exact absurd rfl hq
        | cons qh qt =>
          rw [startsWithCh, Bool.and_eq_true] at hsw ⊢
          refine ⟨hsw.1, ?_⟩
          cases qt with
          | nil => rfl
          | cons q2 qt2 =>
            exact ih rest (by omega) (q2 :: qt2) (by simp)
              (fun x hx => hqlt x (List.mem_cons_of_mem qh hx)) hsw.2
      | some n =>
        rw [protect_cons_some c rest n htry] at hsw
        obtain ⟨hn2, hb⟩ := tryAbbrev_bounds _ n htry
        have htkn : ((c :: rest).take n).length = n := by
          rw [List.length_take]
          omega
        rw [List.append_assoc] at hsw
        by_cases hqn : q.length ≤ n
        · have h1 : startsWithCh q ((c :: rest).take n) = true :=
            startsWithCh_append_le q ((c :: rest).take n)
              (phStr ++ protect ((c :: rest).drop (n + 1))) hsw (by omega)
          exact startsWithCh_take q n (c :: rest) h1
        · push_neg at hqn
          have h2 := startsWithCh_append_drop ((c :: rest).take n) q
            (phStr ++ protect ((c :: rest).drop (n + 1))) hsw (by omega)
          rw [htkn] at h2
          cases hqd : q.drop n with
          | nil =>
            have hz : q.length - n = 0 := by
              rw [← List.length_drop, hqd]
              rfl
            omega
          | cons d ds =>
            rw [hqd] at h2
            rw [show phStr ++ protect ((c :: rest).drop (n + 1))
                = '<' :: (abbrevTail ++ protect ((c :: rest).drop (n + 1))) from rfl] at h2
            rw [startsWithCh, Bool.and_eq_true, decide_eq_true_eq] at h2
            have hd : d ∈ q := by
              have hmemd : d ∈ q.drop n := by
                rw [hqd]
                exact List.mem_cons_self d ds
              exact List.mem_of_mem_drop hmemd
            exact absurd h2.1 (hqlt d hd)

lemma restore_protect : ∀ (N : ℕ) (t : Str), t.length ≤ N →
    containsSub phStr t = false → restore (protect t) = t := by
  intro N
  induction N with
  | zero =>
    intro t ht _
    have htn : t = [] := List.length_eq_zero.mp (by omega)
    subst htn
    rfl
  | succ N ih =>
    intro t ht hcs
    cases t with
    | nil => rfl
    | cons c rest =>
      rw [List.length_cons] at ht
      cases htry : tryAbbrev (c :: rest) with
      | none =>
        rw [protect_cons_none c rest htry]
        have hnsw : startsWithCh phStr (c :: protect rest) = false := by
          by_contra hpos
          rw [Bool.not_eq_false] at hpos
          rw [show (phStr : Str) = '<' :: abbrevTail from rfl, startsWithCh,
            Bool.and_eq_true, decide_eq_true_eq] at hpos
          obtain ⟨hc, htl⟩ := hpos
          subst hc
          have hrest : startsWithCh abbrevTail rest = true :=
            startsWith_protect rest.length rest (le_refl _) abbrevTail (by decide)
              (by decide) htl
          have hsw2 : containsSub phStr ('<' :: rest) = true := by
            rw [containsSub_cons]
            rw [show (phStr : Str) = '<' :: abbrevTail from rfl, startsWithCh]
            simp [hrest]
          rw [hsw2] at hcs
          exact Bool.noConfusion hcs
        rw [restore_cons_neg c (protect rest) hnsw,
          ih rest (by omega) (containsSub_tail phStr c rest hcs)]
      | some n =>
        rw [protect_cons_some c rest n htry]
        obtain ⟨a, hmem, hn, hci, hdot⟩ := tryAbbrev_spec _ n htry
        obtain ⟨hn2, hb⟩ := tryAbbrev_bounds _ n htry
        have hne : ∀ x ∈ (c :: rest).take n, x ≠ '<' := by
          rw [hn]
          exact take_chars_ne_lt a (c :: rest) hci hmem
        have hlen2 : ((c :: rest).drop (n + 1)).length ≤ N := by
          rw [List.length_drop, List.length_cons]
          omega
        rw [List.append_assoc,
          restore_append_no_lt ((c :: rest).take n)
            (phStr ++ protect ((c :: rest).drop (n + 1))) hne,
          restore_ph_append,
          ih ((c :: rest).drop (n + 1)) hlen2
            (containsSub_drop (n + 1) phStr (c :: rest) hcs)]
        apply take_dot_drop
        rw [hn]
        exact beq_iff_eq.mp hdot

lemma reSplitAux_no_match : ∀ (f : ℕ) (acc t : Str), t.length ≤ f →
    (∀ s ∈ t.tails, matchAt s = none) → reSplitAux f acc t = [acc.reverse ++ t]
  | 0, _, _, _, _ => rfl
  | _ + 1, acc, [], _, _ => by
    rw [reSplitAux]
    simp
  | f + 1, acc, c :: rest, hf, hm => by
    have hm0 : matchAt (c :: rest) = none :=
      hm (c :: rest) (by rw [List.tails_cons]; exact List.mem_cons_self _ _)
    simp only [reSplitAux, hm0]
    have hfr : rest.length ≤ f := by
      rw [List.length_cons] at hf
      omega
    rw [reSplitAux_no_match f (c :: acc) rest hfr
      (fun s hs => hm s (by rw [List.tails_cons]; exact List.mem_cons_of_mem _ hs))]
    simp

/-- C8 (amended): on any input whose stripped text is non-empty, that does not
already contain the literal placeholder `<ABBREV>`, and in which the boundary
pattern `([.!?]+)\s+(?=[A-Z]|$)` matches at no position of the protected text,
`_split_into_sentences` returns exactly one sentence: the stripped input. (The
splitter is a pure function of the input by construction; the original claim's
"one sentence" part fails for whitespace-only input, see the counterexample.) -/
theorem C8_splitter_no_boundary (t : Str) (h1 : pyStrip t ≠ [])
    (h2 : ((protect t).tails.all fun s => (matchAt s).isNone) = true)
    (h3 : containsSub phStr t = false) :
    split_into_sentences t = [pyStrip t] := by
  have hm : ∀ s ∈ (protect t).tails, matchAt s = none := by
    intro s hs
    exact Option.isNone_iff_eq_none.mp (List.all_eq_true.mp h2 s hs)
  have hparts : reSplitParts (protect t) = [protect t] := by
    rw [reSplitParts,
      reSplitAux_no_match (protect t).length [] (protect t) (le_refl _) hm]
    rfl
  have hrp : restore (protect t) = t := restore_protect t.length t (le_refl _) h3
  have hg : (([protect t] : List Str).getLast?).getD [] = protect t := rfl
  have hpair : pairSentences [protect t] = [] := rfl
  have hlast : lastPartSentence [protect t] = [pyStrip t] := by
    rw [lastPartSentence, if_pos (by simp), hg, hrp, if_neg h1]
  rw [split_into_sentences, if_neg h1, hparts, hpair, hlast, List.nil_append,
    if_neg (show ¬([pyStrip t] : List Str) = [] by simp)]

/-- Witness for C8: a no-boundary input with non-empty stripped text yields the
single stripped sentence. -/
theorem C8_witness :
    split_into_sentences ("hello world".toList) = [pyStrip ("hello world".toList)] :=
  C8_splitter_no_boundary ("hello world".toList) (by decide) (by decide) (by decide)

/-- Counterexample to C8 as stated: on a whitespace-only input the boundary
pattern matches nowhere, yet the splitter returns zero sentences, not one
sentence equal to the trimmed input. -/
theorem C8_counterexample :
    (((protect (" ".toList)).tails.all fun s => (matchAt s).isNone) = true) ∧
      (split_into_sentences (" ".toList)).length ≠ 1 := by
  decide

end PodcastTranscriber
